import Mathlib

/-!
Verification development for the conversation-analysis pipeline
(`flask_app/utils/conversation_parser.py`, `tree_builder.py`, `cache_manager.py`).

The Python code is shallowly embedded: JSON values decoded from the JSONL
logs become the inductive `JValue`; the `Message` dataclass becomes a
structure; Python's stable in-place `list.sort(key=...)` becomes the stable
insertion sort `isort`; the mutable tree built by `MessageTreeBuilder` is
represented by message *indices* (object identity in Python corresponds to
the position of the message in the input list), with the per-object mutable
`children` lists represented as a map from parent index to the list of child
indices; the unbounded Python recursions over the tree carry an explicit
fuel parameter (sufficiency of the chosen fuel is proved).
-/

/-- JSON-like values as decoded from one line of a JSONL conversation log.
Arrays and objects are encoded as cons chains (`arrNil`/`arrCons`,
`objNil`/`objCons`) inside a single inductive so that all recursion over
values is structural and kernel-computable.  `null` doubles as Python
`None` (`json.loads` maps JSON `null` to `None`).  Numbers are modelled as
integers (float-valued timestamps are truncated by the code via `int(...)`
anyway). -/
inductive JValue where
  | null
  | bool (b : Bool)
  | num (n : Int)
  | str (s : String)
  | arrNil
  | arrCons (head tail : JValue)
  | objNil
  | objCons (key : String) (value tail : JValue)
deriving DecidableEq

/-- Build an encoded JSON array from a Lean list. -/
def jarr : List JValue → JValue
  | [] => .arrNil
  | v :: vs => .arrCons v (jarr vs)

/-- Build an encoded JSON object from a list of key/value pairs. -/
def jobj : List (String × JValue) → JValue
  | [] => .objNil
  | (k, v) :: fs => .objCons k v (jobj fs)

/-- Python `isinstance(v, dict)`. -/
def JValue.isObj : JValue → Bool
  | .objNil | .objCons _ _ _ => true
  | _ => false

/-- Python `isinstance(v, list)`. -/
def JValue.isArr : JValue → Bool
  | .arrNil | .arrCons _ _ => true
  | _ => false

/-- Python `isinstance(v, str)`. -/
def JValue.isStr : JValue → Bool
  | .str _ => true
  | _ => false

/-- Python truthiness of a decoded JSON value: `None`, `False`, `0`, `''`,
`[]` and `{}` are falsy, everything else is truthy. -/
def JValue.truthy : JValue → Bool
  | .null => false
  | .bool b => b
  | .num n => n != 0
  | .str s => !s.isEmpty
  | .arrNil => false
  | .arrCons _ _ => true
  | .objNil => false
  | .objCons _ _ _ => true

/-- Dictionary lookup: `o[key]` when present (`key in o`), `none` otherwise.
Python dicts have unique keys; on the encoded object the first binding wins. -/
def jlookup : JValue → String → Option JValue
  | .objCons k v t, key => if k = key then some v else jlookup t key
  | _, _ => none

/-- Python `o.get(key, dflt)`. -/
def jget (o : JValue) (key : String) (dflt : JValue) : JValue :=
  (jlookup o key).getD dflt

/-- Python `key in o` for a dict. -/
def jmem (o : JValue) (key : String) : Bool :=
  (jlookup o key).isSome

/-- The `Message` dataclass of `conversation_parser.py`, minus the mutable
`children` field, which is tracked separately (it is populated exclusively
by the tree builder; see `MessageT` for the serialization view).  Fields
that Python leaves dynamically typed are `JValue`; `None` is `JValue.null`. -/
structure Message where
  uuid : JValue
  timestamp : JValue
  timestamp_ms : Int
  type : JValue
  content : JValue
  parent_uuid : JValue := .null
  session_id : JValue := .null
  agent_id : JValue := .null
  is_sidechain : JValue := .bool false
  tool_name : JValue := .null
  tool_use_id : JValue := .null
  metadata : List (String × JValue) := []
  raw_data : JValue := .null
deriving DecidableEq

instance : Inhabited Message :=
  ⟨{ uuid := .null, timestamp := .str "", timestamp_ms := 0, type := .str "unknown",
     content := .null }⟩

/-!
Stable sorting.  Python's `list.sort(key=...)` is a stable ascending sort;
it is modelled by insertion sort (`isort`), which produces the same list as
any stable ascending sort.  `le` is the boolean comparison on elements
induced by the sort key.
-/

/-- Insert `a` into `l` before the first element `b` with `le a b`. -/
def oins (le : α → α → Bool) (a : α) : List α → List α
  | [] => [a]
  | b :: l => if le a b then a :: b :: l else b :: oins le a l

/-- Stable insertion sort; models Python's stable `list.sort`. -/
def isort (le : α → α → Bool) : List α → List α
  | [] => []
  | a :: l => oins le a (isort le l)

/-!
The Log Record Decoder (`ConversationParser._parse_message` together with
`_extract_content`) and the Conversation Parser (`_parse_file`, `parse_all`).

Two external behaviours are abstracted as function parameters:
`parseIso : String → Option Int` models
`int(datetime.fromisoformat(s).timestamp() * 1000)` applied to the
`Z`-normalized timestamp string (`none` = the call raises), and
`fromTs : Int → Option String` models
`datetime.fromtimestamp(ms / 1000).isoformat()` (`none` = the call raises,
e.g. out-of-range epoch values).
-/

/-- Character-level model of `timestamp_str.replace('Z', '+00:00')`. -/
def replaceZChars : List Char → List Char
  | [] => []
  | c :: cs =>
    if c = 'Z' then '+' :: '0' :: '0' :: ':' :: '0' :: '0' :: replaceZChars cs
    else c :: replaceZChars cs

/-- Python `timestamp_str.replace('Z', '+00:00')`. -/
def replaceZ (s : String) : String :=
  String.mk (replaceZChars s.data)

namespace ConversationParser

/-- Timestamp extraction of `_parse_message` (lines 165-179): returns the
pair `(timestamp_ms, timestamp)`.  A string is ISO-parsed after `Z`
normalization; a number is taken as epoch milliseconds and back-converted
to an ISO string; Python treats `bool` as `int` (`isinstance(True, int)`);
anything else yields `(0, '')`.  When a parse raises, the `except` branch
resets `timestamp_ms` to `0` and leaves the `timestamp` field at the
original value.  The extraction is total: it never fails. -/
def extract_timestamp (parseIso : String → Option Int) (fromTs : Int → Option String)
    (v : JValue) : Int × JValue :=
  match v with
  | .str s =>
    (match parseIso (replaceZ s) with
     | some ms => (ms, .str s)
     | none => (0, .str s))
  | .num n =>
    (match fromTs n with
     | some iso => (n, .str iso)
     | none => (0, .num n))
  | .bool b =>
    (match fromTs (if b then 1 else 0) with
     | some iso => ((if b then 1 else 0), .str iso)
     | none => (0, .bool b))
  | _ => (0, .str "")

/-- Text blocks collected by the assistant branch of `_extract_content`
(lines 255-261): the `'text'` field (default `''`) of every dict item whose
`'type'` is `'text'`. -/
def assistant_text_parts : JValue → List JValue
  | .arrCons item rest =>
    (if item.isObj ∧ jget item "type" .null = .str "text"
     then [jget item "text" (.str "")] else []) ++ assistant_text_parts rest
  | _ => []

/-- Python `'\n'.join(parts)`: succeeds only when every part is a string
(a non-string part raises `TypeError`, which drops the whole line). -/
def join_parts : List JValue → Option String
  | [] => some ""
  | [.str s] => some s
  | .str s :: rest => (join_parts rest).map (fun r => s ++ "\n" ++ r)
  | _ => none

/-- User-branch scan of `_extract_content` (lines 269-279): walks the
content list accumulating `'text'` fields; the first `tool_result` block is
returned verbatim, aborting the scan.  Returns `(early return, parts)`. -/
def user_content_scan : JValue → List JValue → Option JValue × List JValue
  | .arrCons item rest, parts =>
    if item.isObj then
      if jget item "type" .null = .str "text" then
        user_content_scan rest (parts ++ [jget item "text" (.str "")])
      else if jget item "type" .null = .str "tool_result" then
        (some item, parts)
      else user_content_scan rest parts
    else user_content_scan rest parts
  | _, parts => (none, parts)

/-- Fall-through tail of `_extract_content` (lines 282-291): a top-level
`content` field, then the snapshot field for snapshot records, then the
whole record. -/
def extract_content_generic (data : JValue) (msg_type : JValue) : JValue :=
  if jmem data "content" then jget data "content" .null
  else if msg_type = .str "file-history-snapshot" then jget data "snapshot" .objNil
  else data

/-- The `_extract_content` method (lines 237-291).  `none` models the only
way it can raise: `'\n'.join` applied to a list containing a non-string
`'text'` value (the caller then drops the line). -/
def extract_content (data : JValue) (msg_type : JValue) : Option JValue :=
  match jlookup data "message" with
  | some message =>
    if message.isObj then
      if jget message "role" .null = .str "assistant" then
        let content := jget message "content" .arrNil
        if content.isArr then
          match assistant_text_parts content with
          | [] => some content
          | parts => (join_parts parts).map .str
        else some content
      else if jget message "role" .null = .str "user" then
        let content := jget message "content" .null
        if content.isStr then some content
        else if content.isArr then
          match user_content_scan content [] with
          | (some item, _) => some item
          | (none, []) => some content
          | (none, parts) => (join_parts parts).map .str
        else some content
      else some (extract_content_generic data msg_type)
    else some (extract_content_generic data msg_type)
  | none => some (extract_content_generic data msg_type)

/-- Tool-block scan of `_parse_message` (lines 201-207) over
`data['message']['content']`, starting from `(tool_name, tool_use_id)`.
The first `tool_use` dict item supplies both fields and stops the scan
(`break`); a `tool_result` dict item overwrites `tool_use_id` and the scan
continues (that branch has no `break`). -/
def scan_tool_blocks : JValue → JValue × JValue → JValue × JValue
  | .arrCons item rest, (tn, tid) =>
    if item.isObj then
      if jget item "type" .null = .str "tool_use" then
        (jget item "name" .null, jget item "id" .null)
      else if jget item "type" .null = .str "tool_result" then
        scan_tool_blocks rest (tn, jget item "tool_use_id" .null)
      else scan_tool_blocks rest (tn, tid)
    else scan_tool_blocks rest (tn, tid)
  | _, acc => acc

/-- Tool metadata extraction of `_parse_message` (lines 192-207): only for
`tool_use`/`tool_result` records, and only when `data['message']` is a dict
whose `content` is a list. -/
def extract_tool_info (data : JValue) (msg_type : JValue) : JValue × JValue :=
  if msg_type = .str "tool_use" ∨ msg_type = .str "tool_result" then
    match jlookup data "message" with
    | some message =>
      if message.isObj then
        let msg_content := jget message "content" .arrNil
        if msg_content.isArr then scan_tool_blocks msg_content (.null, .null)
        else (.null, .null)
      else (.null, .null)
    | none => (.null, .null)
  else (.null, .null)

/-- Metadata mapping of `_parse_message` (lines 209-219): auxiliary fields
with `None` values removed. -/
def build_metadata (data : JValue) : List (String × JValue) :=
  ([("cwd", jget data "cwd" .null),
    ("version", jget data "version" .null),
    ("git_branch", jget data "gitBranch" .null),
    ("user_type", jget data "userType" .null),
    ("model",
      match jlookup data "message" with
      | some message => if message.isObj then jget message "model" .null else .null
      | none => .null)]).filter (fun p => decide (p.2 ≠ JValue.null))

/-- The `_parse_message` method (lines 146-235).  `none` models both the
explicit `return None` (missing/falsy `uuid`) and the only exception that
can escape the body (the join `TypeError` inside `_extract_content`); in
either case `_parse_file` drops the line.  A non-dict JSON line raises
`AttributeError` at `data.get`, which `_parse_file` also catches, hence
`none` for non-object input. -/
def parse_message (parseIso : String → Option Int) (fromTs : Int → Option String)
    (data : JValue) : Option Message :=
  if data.isObj then
    let msg_type := jget data "type" (.str "unknown")
    let uuid := jget data "uuid" .null
    if uuid.truthy then
      let ts := extract_timestamp parseIso fromTs (jget data "timestamp" (.str ""))
      match extract_content data msg_type with
      | none => none
      | some content =>
        let tools := extract_tool_info data msg_type
        some
          { uuid := uuid
            timestamp := ts.2
            timestamp_ms := ts.1
            type := msg_type
            content := content
            parent_uuid := jget data "parentUuid" .null
            session_id := jget data "sessionId" .null
            agent_id := jget data "agentId" .null
            is_sidechain := jget data "isSidechain" (.bool false)
            tool_name := tools.1
            tool_use_id := tools.2
            metadata := build_metadata data
            raw_data := data }
    else none
  else none

/-- One log file as seen by `_parse_file`: each non-blank line is either a
decoded JSON value or `none` when `json.loads` fails (the line is then
skipped; blank lines are equally absent from the output, so they are also
modelled as `none`). -/
def parse_file (parseIso : String → Option Int) (fromTs : Int → Option String)
    (lines : List (Option JValue)) : List Message :=
  lines.filterMap (fun line => line.bind (parse_message parseIso fromTs))

/-- Comparison induced by the sort key `lambda m: m.timestamp_ms`. -/
def msg_le (a b : Message) : Bool :=
  decide (a.timestamp_ms ≤ b.timestamp_ms)

/-- The `parse_all` method (lines 83-114): concatenates every file's
messages in enumeration order, then performs one global stable sort by
`timestamp_ms`. -/
def parse_all (parseIso : String → Option Int) (fromTs : Int → Option String)
    (files : List (List (Option JValue))) : List Message :=
  isort msg_le ((files.map (parse_file parseIso fromTs)).flatten)

end ConversationParser

namespace MessageTreeBuilder

/-!
The Tree Builder (`tree_builder.py`).  Python mutates `Message` objects in
place, appending to their `children` lists; object identity is modelled by
the message's index in the input list.  `build` (lines 40-71) produces the
list of root indices plus a map sending each index to the (ordered) list of
indices appended to that message's `children`.  The recursive procedures
(`_sort_children_recursive`, `flatten_with_depth`'s `traverse`, and
`_calculate_max_depth`'s `get_depth`) have no termination bound in Python;
they carry a fuel parameter here, and the development proves that fuel
`msgs.length` reproduces the unbounded recursion (every larger fuel gives
the same result).
-/


/-- Sort key `lambda m: m.timestamp_ms` read through an index. -/
def ts_at (msgs : List Message) (i : Nat) : Int :=
  (msgs.getD i default).timestamp_ms

/-- Index comparison induced by the `timestamp_ms` sort key. -/
def idx_le (msgs : List Message) (a b : Nat) : Bool :=
  decide (ts_at msgs a ≤ ts_at msgs b)

/-- The `message_map` dict built in the first pass of `build` (lines 49-51):
`self.message_map[message.uuid] = message` overwrites, so a lookup returns
the index of the *last* message carrying the uuid. -/
def message_map_find (msgs : List Message) (u : JValue) : Option Nat :=
  msgs.enum.foldl (fun acc p => if p.2.uuid = u then some p.1 else acc) none

/-- Placement decision of the second pass of `build` (lines 54-61) for the
message at index `i`: `some j` when `message.parent_uuid` is truthy and
found in `message_map` (append to `j`'s children), `none` when the message
becomes a root (no parent, falsy parent, or dangling parent). -/
def place_of (msgs : List Message) (i : Nat) : Option Nat :=
  let m := msgs.getD i default
  if m.parent_uuid.truthy then message_map_find msgs m.parent_uuid else none

/-- Mutable state of the second pass: the roots list and every message's
`children` list (keyed by the parent's index). -/
structure TreeState where
  roots : List Nat
  children : Nat → List Nat

/-- Second pass of `build` (lines 54-61): each message is appended either
to its resolved parent's `children` or to `root_messages`. -/
def build_pass2 (pl : Nat → Option Nat) : TreeState → List Nat → TreeState
  | st, [] => st
  | st, i :: rest =>
    match pl i with
    | some j =>
      build_pass2 pl
        { st with children := fun k => if k = j then st.children j ++ [i] else st.children k } rest
    | none => build_pass2 pl { st with roots := st.roots ++ [i] } rest

/-- The recursion `_sort_children_recursive` (lines 73-83): walk the work
list; for each message with a non-empty `children` list, sort that list by
`timestamp_ms` and recurse into the sorted children.  Python's recursion is
unbounded; the explicit fuel is shown sufficient at `msgs.length`. -/
def sort_children_rec (msgs : List Message) : Nat → (Nat → List Nat) → List Nat → (Nat → List Nat)
  | 0, ch, _ => ch
  | fuel+1, ch, worklist =>
    worklist.foldl (fun acc i =>
      if acc i = [] then acc
      else
        sort_children_rec msgs fuel
          (fun k => if k = i then isort (idx_le msgs) (acc i) else acc k)
          (isort (idx_le msgs) (acc i))) ch

/-- Result of `build`: the sorted root indices and the final `children`
map. -/
structure BuildResult where
  roots : List Nat
  children : Nat → List Nat

/-- The `build` method (lines 40-71): first pass builds `message_map`,
second pass distributes messages to parents' `children` or to the roots,
the roots are sorted by `timestamp_ms`, and children lists are sorted
recursively top-down starting from the sorted roots. -/
def build (msgs : List Message) : BuildResult :=
  let st := build_pass2 (place_of msgs) ⟨[], fun _ => []⟩ (List.range msgs.length)
  let roots := isort (idx_le msgs) st.roots
  ⟨roots, sort_children_rec msgs msgs.length st.children roots⟩

/-- The inner `traverse` of `flatten_with_depth` (lines 132-135): emit the
node with its depth, then traverse each child at depth + 1. -/
def traverse_aux (ch : Nat → List Nat) : Nat → Nat → Nat → List (Nat × Nat)
  | 0, _, _ => []
  | fuel+1, i, depth => (i, depth) :: (ch i).flatMap (fun c => traverse_aux ch fuel c (depth + 1))

/-- The `flatten_with_depth` method (lines 123-140) run after `build`:
pre-order traversal of every root at depth 0. -/
def flatten_with_depth (msgs : List Message) (fuel : Nat) : List (Nat × Nat) :=
  (build msgs).roots.flatMap (fun r => traverse_aux (build msgs).children fuel r 0)

/-- The inner `get_depth` of `_calculate_max_depth` (lines 106-109). -/
def get_depth_aux (ch : Nat → List Nat) : Nat → Nat → Nat → Nat
  | 0, _, d => d
  | fuel+1, i, d =>
    if ch i = [] then d
    else ((ch i).map (fun c => get_depth_aux ch fuel c (d + 1))).foldl Nat.max 0

/-- The `_calculate_max_depth` method (lines 104-114) run after `build`. -/
def max_depth (msgs : List Message) (fuel : Nat) : Nat :=
  if (build msgs).roots = [] then 0
  else ((build msgs).roots.map (fun r => get_depth_aux (build msgs).children fuel r 0)).foldl
    Nat.max 0

/-- Iterated parent pointer: follow `place_of` for `k` steps (`none` when a
message without a resolved parent is hit before `k` steps are done). -/
def ancestor (pl : Nat → Option Nat) : Nat → Nat → Option Nat
  | 0, i => some i
  | k+1, i =>
    match pl i with
    | none => none
    | some j => ancestor pl k j

/-- Membership of a message in a parent-reference cycle: following parent
pointers returns to the message itself. -/
def on_cycle (pl : Nat → Option Nat) (i : Nat) : Prop :=
  ∃ k, 0 < k ∧ ancestor pl k i = some i

end MessageTreeBuilder

/-!
The Cache Store (`cache_manager.py`).  The serialized form of a message is
its dataclass dict; `to_dict` (lines 42-48) removes the `children` field,
and a cache read rebuilds `Message(**msg_data)` whose `children` defaults
to `[]`.  `MessageT` is the in-memory view including the `children` list.
-/

/-- A `Message` object together with its `children` list, as held in memory
after tree building (the serialization boundary of the cache). -/
inductive MessageT where
  | node (data : Message) (children : List MessageT)

/-- Field projection for the non-`children` fields. -/
def MessageT.data : MessageT → Message
  | .node d _ => d

/-- The `children` field. -/
def MessageT.children : MessageT → List MessageT
  | .node _ c => c

/-- The `to_dict` method of `Message` (lines 42-48): `asdict(self)` with the
`children` entry popped. -/
def MessageT.to_dict : MessageT → Message :=
  MessageT.data

namespace CacheManager

/-- A conversation source directory as the cache manager sees it: the
resolved path string and the `*.jsonl` files with their modification times.
Modification times are modelled as integers (`st_mtime` floats are
abstracted; only their ordering and equality matter here). -/
structure SourceDir where
  path : String
  files : List (String × Int)
deriving DecidableEq

/-- Python `max(f.stat().st_mtime for f in files)` guarded by `if files:`
(`none` when the directory holds no log files). -/
def latest_mtime (s : SourceDir) : Option Int :=
  (s.files.map (fun f => f.2)).max?

/-- The `get_cache_key` method (lines 47-71).  The code md5-hashes
`f"{path}_{latest_mtime}"`, or the bare path when no log files exist; the
hash is modelled as the injective pair of the path and the optional latest
mtime (md5 collisions and float formatting are abstracted away). -/
def get_cache_key (s : SourceDir) : String × Option Int :=
  (s.path, latest_mtime s)

/-- The pickled envelope written by `set` (lines 180-185). -/
structure CacheData where
  project_path : String
  cached_at : Int
  message_count : Nat
  messages : List Message
deriving DecidableEq

/-- One cache file: its own modification time (the TTL freshness clock,
set at write time) plus the pickled payload. -/
structure CacheEntry where
  mtime : Int
  data : CacheData
deriving DecidableEq

/-- The cache directory: one entry per cache key. -/
abbrev CacheStore := List ((String × Option Int) × CacheEntry)

/-- Read the cache file for a key, if present. -/
def store_lookup : CacheStore → (String × Option Int) → Option CacheEntry
  | [], _ => none
  | (k', e) :: rest, k => if k' = k then some e else store_lookup rest k

/-- Write (or overwrite) the cache file for a key. -/
def store_set : CacheStore → (String × Option Int) → CacheEntry → CacheStore
  | [], k, e => [(k, e)]
  | (k', e') :: rest, k, e =>
    if k' = k then (k, e) :: rest else (k', e') :: store_set rest k e

/-- The `is_cache_valid` method (lines 85-111): the file must exist and its
age `now - mtime` must not exceed the TTL. -/
def is_cache_valid (ttl now : Int) : Option CacheEntry → Bool
  | none => false
  | some e => decide (now - e.mtime ≤ ttl)

/-- The `get` method (lines 113-154): key derivation, freshness check, then
reconstruction of `Message(**msg_data)` for every stored dict — the
`children` field is absent from the dicts and defaults to `[]`. -/
def get (ttl : Int) (store : CacheStore) (now : Int) (s : SourceDir) :
    Option (List MessageT) :=
  let entry := store_lookup store (get_cache_key s)
  if is_cache_valid ttl now entry then
    match entry with
    | some e => some (e.data.messages.map (fun d => MessageT.node d []))
    | none => none
  else none

/-- The `set` method (lines 156-195): serialize every message through
`to_dict` (excluding `children`) and write the envelope under the derived
key; the written file's mtime is the current time. -/
def set (store : CacheStore) (now : Int) (s : SourceDir) (messages : List MessageT) :
    CacheStore :=
  store_set store (get_cache_key s)
    { mtime := now
      data :=
        { project_path := s.path
          cached_at := now
          message_count := messages.length
          messages := messages.map MessageT.to_dict } }

/-- Rewrite/touch one log file: its `st_mtime` becomes `t`. -/
def touch_file (s : SourceDir) (name : String) (t : Int) : SourceDir :=
  { s with files := s.files.map (fun f => if f.1 = name then (f.1, t) else f) }

/-- Delete one log file from the source directory. -/
def delete_file (s : SourceDir) (name : String) : SourceDir :=
  { s with files := s.files.filter (fun f => decide (f.1 ≠ name)) }

end CacheManager

namespace SessionGrouper

/-!
The Session Grouper (`tree_builder.py`, lines 143-213).
-/


/-- Python `message.session_id or 'unknown'` (the sentinel bucket is used
for any falsy session id). -/
def session_key (m : Message) : JValue :=
  if m.session_id.truthy then m.session_id else .str "unknown"

/-- Append a message to its session bucket, creating the bucket at the end
on first sight — Python dicts preserve insertion order. -/
def group_append : List (JValue × List Message) → JValue → Message →
    List (JValue × List Message)
  | [], k, m => [(k, [m])]
  | (k', ms) :: rest, k, m =>
    if k' = k then (k', ms ++ [m]) :: rest else (k', ms) :: group_append rest k m

/-- The `group_by_session` method (lines 155-174): bucket by session key in
encounter order, then sort every bucket ascending by `timestamp_ms`. -/
def group_by_session (msgs : List Message) : List (JValue × List Message) :=
  (msgs.foldl (fun acc m => group_append acc (session_key m) m) []).map
    (fun g => (g.1, isort ConversationParser.msg_le g.2))

/-- One per-session summary dict of `get_session_info` (lines 193-206). -/
structure SessionInfo where
  session_id : JValue
  message_count : Nat
  first_timestamp : JValue
  last_timestamp : JValue
  duration_ms : Int
  agents_used : List JValue
  message_types : List (JValue × Nat)
deriving DecidableEq

/-- Per-kind counting of `get_session_info` (lines 203-206), keyed in
encounter order. -/
def type_bump : List (JValue × Nat) → JValue → List (JValue × Nat)
  | [], t => [(t, 1)]
  | (t', c) :: rest, t =>
    if t' = t then (t', c + 1) :: rest else (t', c) :: type_bump rest t

/-- Python `info['message_types']` accumulation over the session. -/
def count_types (msgs : List Message) : List (JValue × Nat) :=
  msgs.foldl (fun acc m => type_bump acc m.type) []

/-- Build the summary for one (already time-sorted) session bucket; `none`
models the `if not messages: continue` guard. `agents_used` is
`list(set(...))`, whose iteration order CPython leaves unspecified; it is
modelled as first-encounter order. -/
def session_info_of : JValue × List Message → Option SessionInfo
  | (_, []) => none
  | (sid, m :: ms) =>
    some
      { session_id := sid
        message_count := (m :: ms).length
        first_timestamp := m.timestamp
        last_timestamp := (ms.getLastD m).timestamp
        duration_ms := (ms.getLastD m).timestamp_ms - m.timestamp_ms
        agents_used :=
          ((m :: ms).filterMap (fun x => if x.agent_id.truthy then some x.agent_id else none)).dedup
        message_types := count_types (m :: ms) }

/-- CPython comparability of two sort keys: `str` compares only with `str`;
`int`, `float` and `bool` inter-compare; everything else (`None`, mixed
`str`/`int`, dicts...) raises `TypeError` in `list.sort`. -/
def jcomparable : JValue → JValue → Bool
  | .str _, .str _ => true
  | .num _, .num _ => true
  | .num _, .bool _ => true
  | .bool _, .num _ => true
  | .bool _, .bool _ => true
  | _, _ => false

/-- Key order used by `session_info.sort(key=lambda s: s['first_timestamp'])`
on comparable keys: code-point lexicographic order on strings (as in
CPython), numeric order otherwise (`True == 1`, `False == 0`). -/
def jkey_le : JValue → JValue → Bool
  | .str a, .str b => !decide (b < a)
  | .num a, .num b => decide (a ≤ b)
  | .num a, .bool b => decide (a ≤ (if b then (1 : Int) else 0))
  | .bool a, .num b => decide ((if a then (1 : Int) else 0) ≤ b)
  | .bool a, .bool b => decide ((if a then (1 : Int) else 0) ≤ (if b then (1 : Int) else 0))
  | _, _ => false

/-- Is every pair of sort keys comparable?  With two or more summaries any
incomparable pair makes `list.sort` raise `TypeError` (the first key of a
new type is compared against a key of the old type when inserted); with at
most one element no comparison happens and the guard is vacuously true. -/
def all_comparable : List JValue → Bool
  | [] => true
  | k :: rest => (rest.all (fun k' => jcomparable k k') && all_comparable rest)

/-- The `get_session_info` method (lines 176-213): one summary per session
bucket (in bucket order), then an ascending stable sort by the
`first_timestamp` *string* key.  `none` models the `TypeError` raised by
`list.sort` when two summaries carry incomparable first timestamps (e.g. a
string and a number). -/
def get_session_info (msgs : List Message) : Option (List SessionInfo) :=
  let infos := (group_by_session msgs).filterMap session_info_of
  if all_comparable (infos.map (fun i => i.first_timestamp)) then
    some (isort (fun a b => jkey_le a.first_timestamp b.first_timestamp) infos)
  else none

end SessionGrouper

/-- Concrete ISO-timestamp parser for closed examples: every string fails
to parse (as `datetime.fromisoformat` does on non-ISO text). -/
def pIso0 : String → Option Int := fun _ => none

/-- Concrete epoch back-converter for closed examples: every epoch value
formats successfully. -/
def fTs0 : Int → Option String := fun _ => some "1970-01-01T00:00:00"

/-- One-record file: uuid `a`, numeric timestamp 5. -/
def fileTieA : List (Option JValue) := [some (jobj [("uuid", .str "a"), ("timestamp", .num 5)])]

/-- One-record file: uuid `b`, numeric timestamp 5 (a cross-file tie). -/
def fileTieB : List (Option JValue) := [some (jobj [("uuid", .str "b"), ("timestamp", .num 5)])]

/-- One-record file: uuid `a`, numeric timestamp 1. -/
def fileDistinctA : List (Option JValue) :=
  [some (jobj [("uuid", .str "a"), ("timestamp", .num 1)])]

/-- One-record file: uuid `b`, numeric timestamp 2. -/
def fileDistinctB : List (Option JValue) :=
  [some (jobj [("uuid", .str "b"), ("timestamp", .num 2)])]

/-- A record whose uuid collides with another line's uuid. -/
def dupRecord : JValue := jobj [("uuid", .str "a")]

namespace ConversationParser

/-- Timestamp values on which the decode degrades to `timestamp_ms = 0`:
strings the ISO parser rejects, and wrongly-typed values (`None`, lists,
dicts).  A missing field is seen as the default `''`, an always-rejected
string. -/
def unparsable_ts (parseIso : String → Option Int) (v : JValue) : Prop :=
  (∃ s, v = .str s ∧ parseIso (replaceZ s) = none) ∨
    v = .null ∨ v.isArr = true ∨ v.isObj = true

end ConversationParser

/-- Concrete ISO parser for the C7 counterexample: one pre-epoch ISO string
parses to a negative epoch value (as `datetime.fromisoformat` does for 1969
dates), everything else fails. -/
def pIsoNeg : String → Option Int :=
  fun s => if s = "1969-12-31T23:59:59" then some (-1000) else none

/-- A file holding an unparsable-timestamp record and a pre-epoch
record. -/
def fileNeg : List (Option JValue) :=
  [some (jobj [("uuid", .str "bad"), ("timestamp", .str "nonsense")]),
   some (jobj [("uuid", .str "old"), ("timestamp", .str "1969-12-31T23:59:59")])]

/-- Record used by the C7 witness: truthy uuid, wrongly-typed (`null`)
timestamp. -/
def recNullTs : JValue := jobj [("uuid", .str "u"), ("timestamp", .null)]

/-- Source used in concrete cache examples. -/
def srcTwoFiles : CacheManager.SourceDir :=
  ⟨"/conv/projA", [("a.jsonl", 5), ("b.jsonl", 3)]⟩

namespace SessionGrouper

/-!
Session grouper claims.
-/


/-- Lookup in an insertion-ordered association list (a Python dict). -/
def alookup {β : Type _} : List (JValue × β) → JValue → Option β
  | [], _ => none
  | (k', v) :: rest, k => if k' = k then some v else alookup rest k

end SessionGrouper

/-- Two messages in different sessions whose `timestamp` fields have
different Python types (a string and a number). -/
def msgStrTs : Message :=
  { uuid := .str "1", timestamp := .str "T", timestamp_ms := 1, type := .str "user",
    content := .null, session_id := .str "s1" }

/-- Companion message with a numeric `timestamp` (as produced by the
numeric-timestamp decode path) in a second session. -/
def msgNumTs : Message :=
  { uuid := .str "2", timestamp := .num 7, timestamp_ms := 2, type := .str "user",
    content := .null, session_id := .str "s2" }

/-- Message with a string timestamp used in the C8 witness. -/
def msgW1 : Message :=
  { uuid := .str "1", timestamp := .str "2024-01-01T00:00:00Z", timestamp_ms := 10,
    type := .str "user", content := .null, session_id := .str "s1" }

/-- Second message of the same session with a later timestamp. -/
def msgW2 : Message :=
  { uuid := .str "2", timestamp := .str "2024-01-01T00:00:05Z", timestamp_ms := 5010,
    type := .str "assistant", content := .null, session_id := .str "s1" }

namespace MessageTreeBuilder

/-!
Tree builder claims: characterization of `build`.
-/


/-- Reachability from node `i` downward through `ch`-edges within `fuel`
steps (the traversal relation of `flatten_with_depth`). -/
def reach_b (ch : Nat → List Nat) : Nat → Nat → Nat → Bool
  | 0, _, _ => false
  | fuel+1, x, i => decide (x = i) || (ch i).any (fun c => reach_b ch fuel x c)

/-- A node that no parent chain returns to (the negation of membership in a
parent cycle). -/
def no_return (pl : Nat → Option Nat) (i : Nat) : Prop :=
  ∀ k, 0 < k → ancestor pl k i ≠ some i

end MessageTreeBuilder

/-- Message with a dangling truthy parent reference, for the tree
witnesses. -/
def msgDangling : Message :=
  { uuid := .str "child", timestamp := .str "", timestamp_ms := 7, type := .str "user",
    content := .null, parent_uuid := .str "nowhere" }

/-- Root message for the tree witnesses. -/
def msgRoot : Message :=
  { uuid := .str "root", timestamp := .str "", timestamp_ms := 3, type := .str "user",
    content := .null }

namespace MessageTreeBuilder

/-- Depth of a message above its root along parent pointers, computed with
fuel (`none` when the fuel runs out before a root is reached). -/
def ground_depth (pl : Nat → Option Nat) : Nat → Nat → Option Nat
  | 0, _ => none
  | f+1, i =>
    match pl i with
    | none => some 0
    | some j => (ground_depth pl f j).map (· + 1)

/-- A message whose parent chain reaches a root in exactly `g` steps. -/
def grounded_at (pl : Nat → Option Nat) (i g : Nat) : Prop :=
  ∃ f, ground_depth pl f i = some g

end MessageTreeBuilder

/-- Message in a two-cycle with `msgCycleB`, for the C10 witness. -/
def msgCycleA : Message :=
  { uuid := .str "x", timestamp := .str "", timestamp_ms := 1, type := .str "user",
    content := .null, parent_uuid := .str "y" }

/-- Message in a two-cycle with `msgCycleA`. -/
def msgCycleB : Message :=
  { uuid := .str "y", timestamp := .str "", timestamp_ms := 2, type := .str "user",
    content := .null, parent_uuid := .str "x" }

namespace ConversationParser

/-- List view of an encoded JSON array (non-arrays read as empty). -/
def jitems : JValue → List JValue
  | .arrCons h t => h :: jitems t
  | _ => []

/-- A dict sub-block with `type == 'tool_use'`. -/
def is_tool_use (v : JValue) : Bool :=
  v.isObj && decide (jget v "type" .null = .str "tool_use")

/-- A dict sub-block with `type == 'tool_result'` (tested only after the
`tool_use` test fails, as in the `elif`). -/
def is_tool_result (v : JValue) : Bool :=
  v.isObj && decide (jget v "type" .null = .str "tool_result")

end ConversationParser

/-- Record of kind `tool_result` whose content holds two `tool_result`
sub-blocks with different reference ids. -/
def recToolResults : JValue := jobj [
  ("type", .str "tool_result"),
  ("uuid", .str "u1"),
  ("message", jobj [("content", jarr [
    jobj [("type", .str "tool_result"), ("tool_use_id", .str "T1")],
    jobj [("type", .str "tool_result"), ("tool_use_id", .str "T2")]])])]

/-- Record of kind `tool_use` whose content holds a `tool_result` block,
then two `tool_use` blocks — the first `tool_use` block must win. -/
def recToolUse : JValue := jobj [
  ("type", .str "tool_use"),
  ("uuid", .str "u2"),
  ("message", jobj [("content", jarr [
    jobj [("type", .str "tool_result"), ("tool_use_id", .str "R0")],
    jobj [("type", .str "tool_use"), ("name", .str "Bash"), ("id", .str "I1")],
    jobj [("type", .str "tool_use"), ("name", .str "Grep"), ("id", .str "I2")]])])]

theorem oins_perm (le : α → α → Bool) (a : α) (l : List α) :
    (oins le a l).Perm (a :: l) := by
  induction l with
  | nil => exact List.Perm.refl _
  | cons b l ih =>
    by_cases h : le a b
    · simp [oins, h]
    · simpa [oins, h] using (ih.cons b).trans (List.Perm.swap a b l)

theorem isort_perm (le : α → α → Bool) (l : List α) :
    (isort le l).Perm l := by
  induction l with
  | nil => exact List.Perm.refl _
  | cons a l ih => exact (oins_perm le a (isort le l)).trans (ih.cons a)

theorem mem_isort (le : α → α → Bool) (l : List α) (x : α) :
    x ∈ isort le l ↔ x ∈ l :=
  (isort_perm le l).mem_iff

theorem pairwise_oins (le : α → α → Bool) (a : α) (l : List α)
    (htot : ∀ b ∈ l, le a b = true ∨ le b a = true)
    (htrans : ∀ b ∈ l, ∀ c ∈ l, le a b = true → le b c = true → le a c = true)
    (hl : l.Pairwise (fun x y => le x y = true)) :
    (oins le a l).Pairwise (fun x y => le x y = true) := by
  induction l with
  | nil => simp [oins]
  | cons b l ih =>
    rcases List.pairwise_cons.1 hl with ⟨hb, hl'⟩
    by_cases h : le a b
    · simp only [oins, h, if_true]
      refine List.pairwise_cons.2 ⟨?_, hl⟩
      intro c hc
      rcases List.mem_cons.1 hc with hc | hc
      · rw [hc]; exact h
      · exact htrans b (by simp) c (by simp [hc]) h (hb c hc)
    · simp only [oins, h, if_false, Bool.false_eq_true]
      refine List.pairwise_cons.2 ⟨?_, ?_⟩
      · intro c hc
        have hc' : c ∈ a :: l := (oins_perm le a l).mem_iff.1 hc
        rcases List.mem_cons.1 hc' with hc' | hc'
        · subst hc'
          rcases htot b (by simp) with h' | h'
          · exact absurd h' (by simpa using h)
          · exact h'
        · exact hb c hc'
      · exact ih (fun c hc => htot c (by simp [hc]))
          (fun c hc d hd => htrans c (by simp [hc]) d (by simp [hd])) hl'

theorem pairwise_isort (le : α → α → Bool) (l : List α)
    (htot : ∀ a ∈ l, ∀ b ∈ l, le a b = true ∨ le b a = true)
    (htrans : ∀ a ∈ l, ∀ b ∈ l, ∀ c ∈ l,
      le a b = true → le b c = true → le a c = true) :
    (isort le l).Pairwise (fun x y => le x y = true) := by
  induction l with
  | nil => simp [isort]
  | cons a l ih =>
    refine pairwise_oins le a (isort le l) ?_ ?_ ?_
    · intro b hb
      exact htot a (by simp) b (by simp [(mem_isort le l b).1 hb])
    · intro b hb c hc
      exact htrans a (by simp) b (by simp [(mem_isort le l b).1 hb])
        c (by simp [(mem_isort le l c).1 hc])
    · exact ih (fun x hx y hy => htot x (by simp [hx]) y (by simp [hy]))
        (fun x hx y hy z hz =>
          htrans x (by simp [hx]) y (by simp [hy]) z (by simp [hz]))

theorem filter_oins {κ : Type _} [DecidableEq κ] (k : α → κ) (le : α → α → Bool)
    (hne : ∀ x y, le x y = false → k x ≠ k y) (a : α) (l : List α) (t : κ) :
    (oins le a l).filter (fun x => decide (k x = t)) =
      if k a = t then a :: l.filter (fun x => decide (k x = t))
      else l.filter (fun x => decide (k x = t)) := by
  induction l with
  | nil => by_cases h : k a = t <;> simp [oins, h]
  | cons b l ih =>
    by_cases h : le a b
    · by_cases ha : k a = t <;> simp [oins, h, ha]
    · have hab : k a ≠ k b := hne a b (by simpa using h)
      by_cases ha : k a = t
      · have hb : ¬ (k b = t) := fun hb => hab (by rw [ha, hb])
        simp [oins, h, ha, hb, ih]
      · by_cases hb : k b = t <;> simp [oins, h, ha, hb, ih]

theorem filter_isort {κ : Type _} [DecidableEq κ] (k : α → κ) (le : α → α → Bool)
    (hne : ∀ x y, le x y = false → k x ≠ k y) (l : List α) (t : κ) :
    (isort le l).filter (fun x => decide (k x = t)) =
      l.filter (fun x => decide (k x = t)) := by
  induction l with
  | nil => rfl
  | cons a l ih =>
    by_cases ha : k a = t <;>
      simp [isort, filter_oins k le hne, ha, ih]

namespace ConversationParser

/-!
Parser-level claims.
-/


theorem msg_le_total (a b : Message) : msg_le a b = true ∨ msg_le b a = true := by
  simp only [msg_le, decide_eq_true_eq]
  exact le_total _ _

theorem msg_le_trans (a b c : Message) :
    msg_le a b = true → msg_le b c = true → msg_le a c = true := by
  simp only [msg_le, decide_eq_true_eq]
  exact le_trans

theorem msg_le_false_ne (a b : Message) :
    msg_le a b = false → a.timestamp_ms ≠ b.timestamp_ms := by
  simp only [msg_le, decide_eq_false_iff_not, not_le]
  intro h
  exact ne_of_gt h

/-- Sortedness part of C1, as a reusable lemma. -/
theorem parse_all_pairwise (parseIso : String → Option Int) (fromTs : Int → Option String)
    (files : List (List (Option JValue))) :
    (parse_all parseIso fromTs files).Pairwise
      (fun a b => a.timestamp_ms ≤ b.timestamp_ms) := by
  have h := pairwise_isort msg_le ((files.map (parse_file parseIso fromTs)).flatten)
    (fun a _ b _ => msg_le_total a b) (fun a _ b _ c _ => msg_le_trans a b c)
  exact h.imp (fun hab => by simpa [msg_le, decide_eq_true_eq] using hab)

/-- Stability part of C1, as a reusable lemma: for each timestamp value the
output's sublist of messages carrying it is exactly the input's (in
file-by-file, line-by-line encounter order). -/
theorem parse_all_stable (parseIso : String → Option Int) (fromTs : Int → Option String)
    (files : List (List (Option JValue))) (t : Int) :
    (parse_all parseIso fromTs files).filter (fun m => decide (m.timestamp_ms = t)) =
      ((files.map (parse_file parseIso fromTs)).flatten).filter
        (fun m => decide (m.timestamp_ms = t)) :=
  filter_isort (fun m => m.timestamp_ms) msg_le msg_le_false_ne _ t

/-- Permutation fact used by several claims: `parse_all` is a permutation
of the concatenation of the per-file messages. -/
theorem parse_all_perm (parseIso : String → Option Int) (fromTs : Int → Option String)
    (files : List (List (Option JValue))) :
    (parse_all parseIso fromTs files).Perm
      ((files.map (parse_file parseIso fromTs)).flatten) :=
  isort_perm msg_le _

end ConversationParser

/-- C1: for every valid source, the flat list returned by `parse_all` is
sorted ascending (non-decreasing) in `timestamp_ms`, and the sort is
stable: for every timestamp value, the messages carrying it appear in the
output exactly in their input encounter order (file by file, line by
line). -/
theorem C1_parse_all_sorted_and_stable (parseIso : String → Option Int)
    (fromTs : Int → Option String) (files : List (List (Option JValue))) :
    (ConversationParser.parse_all parseIso fromTs files).Pairwise
        (fun a b => a.timestamp_ms ≤ b.timestamp_ms) ∧
      ∀ t : Int,
        (ConversationParser.parse_all parseIso fromTs files).filter
            (fun m => decide (m.timestamp_ms = t)) =
          ((files.map (ConversationParser.parse_file parseIso fromTs)).flatten).filter
            (fun m => decide (m.timestamp_ms = t)) :=
  ⟨ConversationParser.parse_all_pairwise parseIso fromTs files,
   ConversationParser.parse_all_stable parseIso fromTs files⟩

/-- C5 counterexample: two files whose single records share `timestamp_ms`;
enumerating the files in the two orders yields different message
sequences (`[a, b]` vs `[b, a]`), because the stable global sort keeps
encounter order for ties.  This refutes order-independence as claimed. -/
theorem C5_counterexample :
    [fileTieB, fileTieA].Perm [fileTieA, fileTieB] ∧
      ConversationParser.parse_all pIso0 fTs0 [fileTieB, fileTieA] ≠
        ConversationParser.parse_all pIso0 fTs0 [fileTieA, fileTieB] := by
  constructor
  · decide
  · intro h
    have := congrArg (fun l => l.map Message.uuid) h
    revert this
    decide

/-- C5 (amended): for a fixed set of input files and contents, two runs of
`parse_all` that enumerate the log files in different orders return the
same message sequence, provided no two decoded messages share a
`timestamp_ms`; with ties the stable sort preserves the (different)
encounter orders and the outputs can differ. -/
theorem C5_parse_all_order_independent_amended (parseIso : String → Option Int)
    (fromTs : Int → Option String) (files₁ files₂ : List (List (Option JValue)))
    (hperm : files₂.Perm files₁)
    (hnodup : (((files₁.map (ConversationParser.parse_file parseIso fromTs)).flatten).map
      Message.timestamp_ms).Nodup) :
    ConversationParser.parse_all parseIso fromTs files₂ =
      ConversationParser.parse_all parseIso fromTs files₁ := by
  have hp : ((files₂.map (ConversationParser.parse_file parseIso fromTs)).flatten).Perm
      ((files₁.map (ConversationParser.parse_file parseIso fromTs)).flatten) :=
    (hperm.map _).flatten
  have hperm21 : (ConversationParser.parse_all parseIso fromTs files₂).Perm
      (ConversationParser.parse_all parseIso fromTs files₁) :=
    ((ConversationParser.parse_all_perm parseIso fromTs files₂).trans hp).trans
      (ConversationParser.parse_all_perm parseIso fromTs files₁).symm
  have hstrict : ∀ fs : List (List (Option JValue)),
      (((fs.map (ConversationParser.parse_file parseIso fromTs)).flatten).map
        Message.timestamp_ms).Nodup →
      (ConversationParser.parse_all parseIso fromTs fs).Pairwise
        (fun a b => a.timestamp_ms < b.timestamp_ms) := by
    intro fs hnd
    have hnd' : ((ConversationParser.parse_all parseIso fromTs fs).map
        Message.timestamp_ms).Nodup :=
      (((ConversationParser.parse_all_perm parseIso fromTs fs).map
        Message.timestamp_ms).nodup_iff).2 hnd
    have hne : (ConversationParser.parse_all parseIso fromTs fs).Pairwise
        (fun a b => a.timestamp_ms ≠ b.timestamp_ms) :=
      List.pairwise_map.1 hnd'
    exact ((ConversationParser.parse_all_pairwise parseIso fromTs fs).and hne).imp
      (fun h => lt_of_le_of_ne h.1 h.2)
  have hs₂ : (ConversationParser.parse_all parseIso fromTs files₂).Pairwise
      (fun a b => a.timestamp_ms < b.timestamp_ms) :=
    hstrict files₂ (((hp.map Message.timestamp_ms).nodup_iff).2 hnodup)
  have hs₁ : (ConversationParser.parse_all parseIso fromTs files₁).Pairwise
      (fun a b => a.timestamp_ms < b.timestamp_ms) := hstrict files₁ hnodup
  haveI : IsAntisymm Message (fun a b => a.timestamp_ms < b.timestamp_ms) :=
    ⟨fun a b h h' => absurd h' (not_lt.2 (le_of_lt h))⟩
  exact List.eq_of_perm_of_sorted hperm21 hs₂ hs₁

/-- Witness for the amended C5 at a concrete input with distinct
timestamps. -/
theorem C5_parse_all_order_independent_amended_witness :
    ConversationParser.parse_all pIso0 fTs0 [fileDistinctB, fileDistinctA] =
      ConversationParser.parse_all pIso0 fTs0 [fileDistinctA, fileDistinctB] :=
  C5_parse_all_order_independent_amended pIso0 fTs0 [fileDistinctA, fileDistinctB]
    [fileDistinctB, fileDistinctA] (by decide) (by decide)

/-- C9 counterexample: a file with two records carrying the same uuid is
parsed into two messages with the same uuid — `parse_all` performs no
deduplication, so uuids are not pairwise distinct for every parse
result. -/
theorem C9_counterexample :
    ¬ ((ConversationParser.parse_all pIso0 fTs0 [[some dupRecord, some dupRecord]]).map
      Message.uuid).Nodup := by decide

/-- C9 (amended): the parser introduces no duplication — its output is a
permutation of the decoded lines — so the uuids of a parse result are
pairwise distinct provided the decoded input lines' uuids are pairwise
distinct; duplicate uuids present in the logs pass through unchanged. -/
theorem C9_uuid_nodup_amended (parseIso : String → Option Int)
    (fromTs : Int → Option String) (files : List (List (Option JValue)))
    (h : (((files.map (ConversationParser.parse_file parseIso fromTs)).flatten).map
      Message.uuid).Nodup) :
    ((ConversationParser.parse_all parseIso fromTs files).map Message.uuid).Nodup :=
  (((ConversationParser.parse_all_perm parseIso fromTs files).map Message.uuid).nodup_iff).2 h

/-- Witness for the amended C9 at a concrete two-file input with distinct
uuids. -/
theorem C9_uuid_nodup_amended_witness :
    ((ConversationParser.parse_all pIso0 fTs0 [fileDistinctA, fileDistinctB]).map
      Message.uuid).Nodup :=
  C9_uuid_nodup_amended pIso0 fTs0 [fileDistinctA, fileDistinctB] (by decide)

namespace ConversationParser

theorem extract_timestamp_zero_of_unparsable (parseIso : String → Option Int)
    (fromTs : Int → Option String) (v : JValue)
    (h : unparsable_ts parseIso v) :
    (extract_timestamp parseIso fromTs v).1 = 0 := by
  rcases h with ⟨s, rfl, hs⟩ | h | h | h
  · simp [extract_timestamp, hs]
  · subst h; rfl
  · cases v <;> simp_all [JValue.isArr] <;> rfl
  · cases v <;> simp_all [JValue.isObj] <;> rfl

end ConversationParser

/-- C7 counterexample: the record with the unparsable timestamp is decoded
with `timestamp_ms = 0`, but it does **not** sort first — the pre-epoch
message (negative `timestamp_ms`) precedes it in the `parse_all` output. -/
theorem C7_counterexample :
    pIsoNeg (replaceZ "nonsense") = none ∧
      (ConversationParser.parse_all pIsoNeg fTs0 [fileNeg]).map Message.uuid =
        [.str "old", .str "bad"] ∧
      (ConversationParser.parse_all pIsoNeg fTs0 [fileNeg]).map Message.timestamp_ms =
        [-1000, 0] := by
  refine ⟨rfl, ?_, ?_⟩ <;> decide

/-- C7 (amended): for every record carrying a required (truthy) id whose
content extraction succeeds, decoding returns a message for **every** value
of the timestamp field — bad timestamps never raise and never drop the
record — and an unparsable, missing, or wrongly-typed timestamp yields
`timestamp_ms = 0`.  Such messages sort before every positively-timestamped
message in `parse_all` output (first, when no negative pre-epoch timestamps
are present; pre-epoch messages sort before them). -/
theorem C7_timestamp_robustness_amended (parseIso : String → Option Int)
    (fromTs : Int → Option String) (data : JValue)
    (hobj : data.isObj = true)
    (huuid : (jget data "uuid" .null).truthy = true)
    (hcontent : (ConversationParser.extract_content data
      (jget data "type" (.str "unknown"))).isSome = true) :
    (∃ m, ConversationParser.parse_message parseIso fromTs data = some m ∧
        (ConversationParser.unparsable_ts parseIso (jget data "timestamp" (.str "")) →
          m.timestamp_ms = 0)) ∧
      ∀ files : List (List (Option JValue)),
        (ConversationParser.parse_all parseIso fromTs files).Pairwise
          (fun a b => b.timestamp_ms = 0 → a.timestamp_ms ≤ 0) := by
  constructor
  · obtain ⟨c, hc⟩ := Option.isSome_iff_exists.1 hcontent
    have hsome : (ConversationParser.parse_message parseIso fromTs data).isSome = true := by
      simp only [ConversationParser.parse_message, hobj, if_true, huuid, hc, Option.isSome_some]
    obtain ⟨m, hm⟩ := Option.isSome_iff_exists.1 hsome
    refine ⟨m, hm, ?_⟩
    intro hbad
    have hm' := hm
    simp only [ConversationParser.parse_message, hobj, if_true, huuid, hc,
      Option.some.injEq] at hm'
    rw [← hm']
    exact ConversationParser.extract_timestamp_zero_of_unparsable parseIso fromTs _ hbad
  · intro files
    exact (ConversationParser.parse_all_pairwise parseIso fromTs files).imp
      (fun h hb0 => by rw [← hb0]; exact h)

/-- Witness for the amended C7 at a concrete record with a `null`
timestamp. -/
theorem C7_timestamp_robustness_amended_witness :
    (∃ m, ConversationParser.parse_message pIso0 fTs0 recNullTs = some m ∧
        (ConversationParser.unparsable_ts pIso0 (jget recNullTs "timestamp" (.str "")) →
          m.timestamp_ms = 0)) ∧
      ∀ files : List (List (Option JValue)),
        (ConversationParser.parse_all pIso0 fTs0 files).Pairwise
          (fun a b => b.timestamp_ms = 0 → a.timestamp_ms ≤ 0) :=
  C7_timestamp_robustness_amended pIso0 fTs0 recNullTs (by decide) (by decide) (by decide)

namespace CacheManager

/-!
Cache claims.
-/


theorem store_lookup_set_self (store : CacheStore) (k : String × Option Int)
    (e : CacheEntry) : store_lookup (store_set store k e) k = some e := by
  induction store with
  | nil => simp [store_set, store_lookup]
  | cons p rest ih =>
    by_cases h : p.1 = k
    · simp [store_set, store_lookup, h]
    · cases p with
      | mk k' e' => simp_all [store_set, store_lookup]

end CacheManager

/-- C3: an immediate cache round-trip returns the same messages up to the
`children` field — `set` stores each message through `to_dict` (which
excludes `children`) and a within-TTL `get` on the unchanged source
reconstructs every message with `children = []` and all other fields
intact. -/
theorem C3_cache_roundtrip (ttl : Int) (store : CacheManager.CacheStore)
    (s : CacheManager.SourceDir) (msgs : List MessageT) (t_set t_get : Int)
    (httl : t_get - t_set ≤ ttl) :
    ∃ out, CacheManager.get ttl (CacheManager.set store t_set s msgs) t_get s = some out ∧
      out.map MessageT.data = msgs.map MessageT.data ∧
      ∀ m ∈ out, m.children = [] := by
  have hl := CacheManager.store_lookup_set_self store (CacheManager.get_cache_key s)
    { mtime := t_set
      data :=
        { project_path := s.path
          cached_at := t_set
          message_count := msgs.length
          messages := msgs.map MessageT.to_dict } }
  refine ⟨(msgs.map MessageT.to_dict).map (fun d => MessageT.node d []), ?_, ?_, ?_⟩
  · simp only [CacheManager.get, CacheManager.set, hl, CacheManager.is_cache_valid]
    simp [httl]
  · simp [List.map_map, Function.comp, MessageT.to_dict, MessageT.data]
  · intro m hm
    rcases List.mem_map.1 hm with ⟨d, _, rfl⟩
    rfl

/-- Witness for C3 at a concrete source, store and message list. -/
theorem C3_cache_roundtrip_witness :
    ∃ out,
      CacheManager.get 3600
        (CacheManager.set [] 100 srcTwoFiles [MessageT.node default []]) 200 srcTwoFiles =
        some out ∧
      out.map MessageT.data = [MessageT.node default []].map MessageT.data ∧
      ∀ m ∈ out, m.children = [] :=
  C3_cache_roundtrip 3600 [] srcTwoFiles [MessageT.node default []] 100 200 (by decide)

/-- C4 counterexample: deleting a log file whose mtime is not the maximum
(`b.jsonl`, mtime 3, while `a.jsonl` has mtime 5) changes the set of log
files but leaves `max(st_mtime)` — and therefore the cache key — unchanged,
so the next `get` within the TTL still **hits** instead of the claimed
guaranteed miss. -/
theorem C4_counterexample :
    CacheManager.delete_file srcTwoFiles "b.jsonl" ≠ srcTwoFiles ∧
      CacheManager.get_cache_key (CacheManager.delete_file srcTwoFiles "b.jsonl") =
        CacheManager.get_cache_key srcTwoFiles ∧
      CacheManager.get 3600 (CacheManager.set [] 100 srcTwoFiles []) 200
        (CacheManager.delete_file srcTwoFiles "b.jsonl") = some [] := by
  refine ⟨by decide, by decide, rfl⟩

/-- C4 (amended): rewriting/touching a log file to a modification time
strictly above every current one (the normal effect of a rewrite, whose
mtime is the current clock) changes the latest-mtime component of the cache
key, so the key changes and the next `get` misses even within the TTL.
File additions and deletions, however, only change the key when they change
the maximal mtime: deleting a non-maximal file (or adding one below the
maximum) leaves the key — and a cached hit — intact. -/
theorem C4_cache_invalidation_amended (s : CacheManager.SourceDir) (name : String)
    (t' : Int) (msgs : List MessageT) (ttl t_set t_get : Int)
    (hmem : name ∈ s.files.map Prod.fst)
    (habove : ∀ mt ∈ s.files.map Prod.snd, mt < t') :
    CacheManager.get_cache_key (CacheManager.touch_file s name t') ≠
        CacheManager.get_cache_key s ∧
      CacheManager.get ttl (CacheManager.set [] t_set s msgs) t_get
        (CacheManager.touch_file s name t') = none := by
  have hmap : (CacheManager.touch_file s name t').files.map (fun f => f.2) =
      s.files.map (fun f => if f.1 = name then t' else f.2) := by
    simp only [CacheManager.touch_file, List.map_map]
    refine List.map_congr_left ?_
    intro p _
    by_cases hf : p.1 = name <;> simp [Function.comp, hf]
  have hmax : CacheManager.latest_mtime (CacheManager.touch_file s name t') = some t' := by
    haveI : Std.Antisymm (fun (x1 x2 : Int) => x1 ≤ x2) :=
      ⟨fun h h' => le_antisymm h h'⟩
    have hrefl : ∀ a : Int, a ≤ a := fun a => le_refl a
    have hchoice : ∀ a b : Int, a ⊔ b = a ∨ a ⊔ b = b := fun a b => max_choice a b
    have hmle : ∀ a b c : Int, b ⊔ c ≤ a ↔ b ≤ a ∧ c ≤ a := fun _ _ _ => max_le_iff
    rw [CacheManager.latest_mtime, hmap, List.max?_eq_some_iff hrefl hchoice hmle]
    constructor
    · rcases List.mem_map.1 hmem with ⟨p, hp, hname⟩
      refine List.mem_map.2 ⟨p, hp, ?_⟩
      simp [hname]
    · intro b hb
      rcases List.mem_map.1 hb with ⟨p, hp, hpb⟩
      by_cases hf : p.1 = name
      · simp only [hf, if_true] at hpb
        omega
      · simp only [hf, if_false] at hpb
        have hlt := habove p.2 (List.mem_map.2 ⟨p, hp, rfl⟩)
        omega
  have hkey : CacheManager.get_cache_key (CacheManager.touch_file s name t') ≠
      CacheManager.get_cache_key s := by
    intro h
    have h2 : CacheManager.latest_mtime (CacheManager.touch_file s name t') =
        CacheManager.latest_mtime s := congrArg Prod.snd h
    rw [hmax] at h2
    cases hm : CacheManager.latest_mtime s with
    | none => rw [hm] at h2; exact Option.noConfusion h2
    | some m =>
      rw [hm, Option.some.injEq] at h2
      have hmemm : m ∈ s.files.map (fun f => f.2) := by
        have hchoice : ∀ a b : Int, a ⊔ b = a ∨ a ⊔ b = b := fun a b => max_choice a b
        exact List.max?_mem hchoice hm
      rcases List.mem_map.1 hmemm with ⟨p, hp, hpm⟩
      have hlt := habove m (by exact List.mem_map.2 ⟨p, hp, hpm⟩)
      omega
  refine ⟨hkey, ?_⟩
  have hne : ¬ (CacheManager.get_cache_key s =
      CacheManager.get_cache_key (CacheManager.touch_file s name t')) :=
    fun h => hkey h.symm
  have hlk : CacheManager.store_lookup (CacheManager.set [] t_set s msgs)
      (CacheManager.get_cache_key (CacheManager.touch_file s name t')) = none := by
    simp only [CacheManager.set, CacheManager.store_set, CacheManager.store_lookup,
      if_neg hne]
  simp [CacheManager.get, hlk, CacheManager.is_cache_valid]

/-- Witness for the amended C4: touching `b.jsonl` to mtime 9 (above both
current mtimes) changes the key and forces the next `get` to miss. -/
theorem C4_cache_invalidation_amended_witness :
    CacheManager.get_cache_key (CacheManager.touch_file srcTwoFiles "b.jsonl" 9) ≠
        CacheManager.get_cache_key srcTwoFiles ∧
      CacheManager.get 3600 (CacheManager.set [] 100 srcTwoFiles []) 200
        (CacheManager.touch_file srcTwoFiles "b.jsonl" 9) = none :=
  C4_cache_invalidation_amended srcTwoFiles "b.jsonl" 9 [] 3600 100 200
    (by decide) (by decide)

namespace SessionGrouper

theorem alookup_group_append (acc : List (JValue × List Message)) (k' : JValue)
    (m : Message) (k : JValue) :
    alookup (group_append acc k' m) k =
      if k' = k then some ((alookup acc k).getD [] ++ [m]) else alookup acc k := by
  induction acc with
  | nil =>
    by_cases h : k' = k <;> simp [group_append, alookup, h]
  | cons p rest ih =>
    cases p with
    | mk k₀ ms =>
      by_cases h0 : k₀ = k'
      · subst h0
        by_cases hk : k₀ = k
        · simp [group_append, alookup, hk]
        · simp [group_append, alookup, hk]
      · by_cases hk : k₀ = k
        · subst hk
          have : ¬ k' = k₀ := fun h => h0 h.symm
          simp [group_append, alookup, h0, this]
        · simp [group_append, alookup, h0, hk, ih]

theorem keys_group_append (acc : List (JValue × List Message)) (k' : JValue)
    (m : Message) :
    (group_append acc k' m).map Prod.fst =
      if (alookup acc k').isSome then acc.map Prod.fst
      else acc.map Prod.fst ++ [k'] := by
  induction acc with
  | nil => simp [group_append, alookup]
  | cons p rest ih =>
    cases p with
    | mk k₀ ms =>
      by_cases h0 : k₀ = k'
      · subst h0
        simp [group_append, alookup]
      · have : ¬ k₀ = k' := h0
        simp only [group_append, alookup, if_neg this, List.map_cons]
        rw [ih]
        by_cases hs : (alookup rest k').isSome <;> simp [hs]

theorem alookup_isSome_iff_mem_keys (acc : List (JValue × List Message)) (k : JValue) :
    (alookup acc k).isSome = true ↔ k ∈ acc.map Prod.fst := by
  induction acc with
  | nil => simp [alookup]
  | cons p rest ih =>
    cases p with
    | mk k₀ ms =>
      by_cases h : k₀ = k
      · subst h
        simp [alookup]
      · have h' : ¬ k = k₀ := fun hh => h hh.symm
        simp [alookup, h, h', ih]

theorem alookup_of_mem_nodup (acc : List (JValue × List Message)) (k : JValue)
    (l : List Message) (hnd : (acc.map Prod.fst).Nodup) (hmem : (k, l) ∈ acc) :
    alookup acc k = some l := by
  induction acc with
  | nil => cases hmem
  | cons p rest ih =>
    cases p with
    | mk k₀ ms =>
      rcases List.mem_cons.1 hmem with heq | hmem'
      · cases heq
        simp [alookup]
      · have hk : k₀ ≠ k := by
          intro h
          subst h
          have : k₀ ∈ rest.map Prod.fst :=
            List.mem_map.2 ⟨(k₀, l), hmem', rfl⟩
          exact (List.nodup_cons.1 (by simpa using hnd)).1 this
        simp only [alookup, if_neg hk]
        exact ih (List.nodup_cons.1 (by simpa using hnd)).2 hmem'

theorem alookup_foldl_some (msgs : List Message) :
    ∀ (acc : List (JValue × List Message)) (k : JValue) (l : List Message),
      alookup acc k = some l →
      alookup (msgs.foldl (fun a m => group_append a (session_key m) m) acc) k =
        some (l ++ msgs.filter (fun m => decide (session_key m = k))) := by
  induction msgs with
  | nil => intro acc k l h; simpa using h
  | cons m rest ih =>
    intro acc k l h
    simp only [List.foldl_cons]
    by_cases hk : session_key m = k
    · have h1 : alookup (group_append acc (session_key m) m) k = some (l ++ [m]) := by
        rw [alookup_group_append, if_pos hk, h]
        rfl
      have := ih _ k (l ++ [m]) h1
      rw [this]
      simp [List.filter_cons, hk]
    · have h1 : alookup (group_append acc (session_key m) m) k = some l := by
        rw [alookup_group_append, if_neg hk]
        exact h
      have := ih _ k l h1
      rw [this]
      simp [List.filter_cons, hk]

theorem alookup_foldl_none (msgs : List Message) :
    ∀ (acc : List (JValue × List Message)) (k : JValue),
      alookup acc k = none →
      alookup (msgs.foldl (fun a m => group_append a (session_key m) m) acc) k =
        if msgs.filter (fun m => decide (session_key m = k)) = [] then none
        else some (msgs.filter (fun m => decide (session_key m = k))) := by
  induction msgs with
  | nil => intro acc k h; simpa using h
  | cons m rest ih =>
    intro acc k h
    simp only [List.foldl_cons]
    by_cases hk : session_key m = k
    · have h1 : alookup (group_append acc (session_key m) m) k = some [m] := by
        rw [alookup_group_append, if_pos hk, h]
        rfl
      have := alookup_foldl_some rest _ k [m] h1
      rw [this]
      simp [List.filter_cons, hk]
    · have h1 : alookup (group_append acc (session_key m) m) k = none := by
        rw [alookup_group_append, if_neg hk]
        exact h
      have := ih _ k h1
      rw [this]
      simp [List.filter_cons, hk]

theorem foldl_keys_nodup (msgs : List Message) :
    ∀ acc : List (JValue × List Message), ((acc.map Prod.fst).Nodup) →
      (((msgs.foldl (fun a m => group_append a (session_key m) m) acc).map Prod.fst)).Nodup := by
  induction msgs with
  | nil => intro acc h; simpa using h
  | cons m rest ih =>
    intro acc h
    simp only [List.foldl_cons]
    refine ih _ ?_
    rw [keys_group_append]
    by_cases hs : (alookup acc (session_key m)).isSome
    · simp [hs, h]
    · simp only [hs, if_false, Bool.false_eq_true]
      refine List.Nodup.append h (by simp) ?_
      intro a ha hb
      have hab : a = session_key m := by simpa using hb
      rw [hab] at ha
      exact hs ((alookup_isSome_iff_mem_keys acc (session_key m)).2 ha)

theorem foldl_buckets_ne_nil (msgs : List Message) :
    ∀ acc : List (JValue × List Message), (∀ p ∈ acc, p.2 ≠ []) →
      ∀ p ∈ msgs.foldl (fun a m => group_append a (session_key m) m) acc, p.2 ≠ [] := by
  induction msgs with
  | nil => intro acc h; simpa using h
  | cons m rest ih =>
    intro acc h
    simp only [List.foldl_cons]
    refine ih _ ?_
    intro p hp
    clear ih
    induction acc with
    | nil =>
      simp only [group_append] at hp
      rcases List.mem_singleton.1 hp with rfl
      simp
    | cons q rest' ih' =>
      cases q with
      | mk k₀ ms =>
        by_cases h0 : k₀ = session_key m
        · simp only [group_append, if_pos h0] at hp
          rcases List.mem_cons.1 hp with rfl | hp'
          · simp
          · exact h p (List.mem_cons.2 (Or.inr hp'))
        · simp only [group_append, if_neg h0] at hp
          rcases List.mem_cons.1 hp with rfl | hp'
          · exact h (k₀, ms) (List.mem_cons.2 (Or.inl rfl))
          · exact ih' (fun q hq => h q (List.mem_cons.2 (Or.inr hq))) hp'

theorem filterMap_session_info_length (buckets : List (JValue × List Message))
    (h : ∀ p ∈ buckets, p.2 ≠ []) :
    (buckets.filterMap session_info_of).length = buckets.length := by
  induction buckets with
  | nil => rfl
  | cons p rest ih =>
    cases p with
    | mk k l =>
      cases l with
      | nil => exact absurd rfl (h (k, []) (by simp))
      | cons m ms =>
        simp only [List.filterMap_cons, session_info_of]
        simp [ih (fun q hq => h q (List.mem_cons.2 (Or.inr hq)))]

theorem jkey_le_total_str (a b : JValue) (ha : a.isStr = true) (hb : b.isStr = true) :
    jkey_le a b = true ∨ jkey_le b a = true := by
  cases a with
  | str x =>
    cases b with
    | str y =>
      by_cases h : y < x
      · right
        simp only [jkey_le, Bool.not_eq_true', decide_eq_false_iff_not]
        exact fun h' => lt_asymm h h'
      · left
        simp only [jkey_le, Bool.not_eq_true', decide_eq_false_iff_not]
        exact h
    | _ => simp_all [JValue.isStr]
  | _ => simp_all [JValue.isStr]

theorem jkey_le_trans_str (a b c : JValue) (ha : a.isStr = true) (hb : b.isStr = true)
    (hc : c.isStr = true) :
    jkey_le a b = true → jkey_le b c = true → jkey_le a c = true := by
  cases a with
  | str x =>
    cases b with
    | str y =>
      cases c with
      | str z =>
        simp only [jkey_le, Bool.not_eq_true', decide_eq_false_iff_not]
        intro h1 h2
        intro h3
        exact h1 (lt_of_le_of_lt (not_lt.1 h2) h3)
      | _ => simp_all [JValue.isStr]
    | _ => simp_all [JValue.isStr]
  | _ => simp_all [JValue.isStr]

theorem jcomparable_str (a b : JValue) (ha : a.isStr = true) (hb : b.isStr = true) :
    jcomparable a b = true := by
  cases a <;> cases b <;> simp_all [JValue.isStr, jcomparable]

theorem all_comparable_of_str (ks : List JValue) (h : ∀ k ∈ ks, k.isStr = true) :
    all_comparable ks = true := by
  induction ks with
  | nil => rfl
  | cons k rest ih =>
    simp only [all_comparable, Bool.and_eq_true, List.all_eq_true]
    exact ⟨fun k' hk' => jcomparable_str k k' (h k (by simp)) (h k' (by simp [hk'])),
      ih (fun k' hk' => h k' (by simp [hk']))⟩

theorem raw_bucket_eq_filter (msgs : List Message) (k : JValue) (l : List Message)
    (hmem : (k, l) ∈ msgs.foldl (fun a m => group_append a (session_key m) m) []) :
    l = msgs.filter (fun m => decide (session_key m = k)) ∧ l ≠ [] := by
  have hnd : (((msgs.foldl (fun a m => group_append a (session_key m) m) []).map
      Prod.fst)).Nodup := foldl_keys_nodup msgs [] (by simp)
  have hl : alookup (msgs.foldl (fun a m => group_append a (session_key m) m) []) k =
      some l := alookup_of_mem_nodup _ k l hnd hmem
  have hchar := alookup_foldl_none msgs [] k rfl
  constructor
  · by_cases hf : msgs.filter (fun m => decide (session_key m = k)) = []
    · rw [hchar, if_pos hf] at hl
      exact Option.noConfusion hl
    · rw [hchar, if_neg hf] at hl
      exact (Option.some.injEq _ _ ▸ hl).symm
  · exact foldl_buckets_ne_nil msgs [] (by simp) (k, l) hmem

theorem group_keys_nodup (msgs : List Message) :
    ((group_by_session msgs).map Prod.fst).Nodup := by
  have h1 : (group_by_session msgs).map Prod.fst =
      (msgs.foldl (fun a m => group_append a (session_key m) m) []).map Prod.fst := by
    simp [group_by_session, List.map_map, Function.comp]
  rw [h1]
  exact foldl_keys_nodup msgs [] (by simp)

theorem group_keys_mem_iff (msgs : List Message) (k : JValue) :
    k ∈ (group_by_session msgs).map Prod.fst ↔
      ∃ m ∈ msgs, session_key m = k := by
  have h1 : (group_by_session msgs).map Prod.fst =
      (msgs.foldl (fun a m => group_append a (session_key m) m) []).map Prod.fst := by
    simp [group_by_session, List.map_map, Function.comp]
  rw [h1, ← alookup_isSome_iff_mem_keys, alookup_foldl_none msgs [] k rfl]
  by_cases hf : msgs.filter (fun m => decide (session_key m = k)) = []
  · rw [if_pos hf]
    simp only [Option.isSome_none, Bool.false_eq_true, false_iff]
    rw [List.filter_eq_nil_iff] at hf
    simp only [decide_eq_true_eq] at hf
    rintro ⟨m, hm, hk⟩
    exact hf m hm hk
  · rw [if_neg hf]
    simp only [Option.isSome_some, true_iff]
    rcases List.exists_mem_of_ne_nil _ hf with ⟨m, hm⟩
    rcases List.mem_filter.1 hm with ⟨hm', hk⟩
    exact ⟨m, hm', by simpa using hk⟩

theorem session_info_spec (msgs : List Message) (info : SessionInfo)
    (hmem : info ∈ (group_by_session msgs).filterMap session_info_of) :
    info.session_id ∈ (group_by_session msgs).map Prod.fst ∧
      ∃ m ms, isort ConversationParser.msg_le
          (msgs.filter (fun x => decide (session_key x = info.session_id))) = m :: ms ∧
        info.message_count = (m :: ms).length ∧
        info.first_timestamp = m.timestamp ∧
        info.duration_ms = (ms.getLastD m).timestamp_ms - m.timestamp_ms ∧
        m ∈ msgs := by
  rcases List.mem_filterMap.1 hmem with ⟨bucket, hb, hsome⟩
  rcases List.mem_map.1 hb with ⟨g, hg, hgb⟩
  rcases g with ⟨k, raw⟩
  rcases raw_bucket_eq_filter msgs k raw hg with ⟨hraw, _⟩
  have hbucket : bucket = (k, isort ConversationParser.msg_le raw) := hgb.symm
  subst hbucket
  cases hs : isort ConversationParser.msg_le raw with
  | nil =>
    rw [hs] at hsome
    exact absurd hsome (by simp [session_info_of])
  | cons m ms =>
    rw [hs] at hsome
    simp only [session_info_of, Option.some.injEq] at hsome
    have hsid : info.session_id = k := by rw [← hsome]
    refine ⟨?_, m, ms, ?_, ?_, ?_, ?_, ?_⟩
    · rw [hsid]
      exact List.mem_map.2 ⟨(k, isort ConversationParser.msg_le raw), hb, rfl⟩
    · rw [hsid, ← hraw, hs]
    · rw [← hsome]
    · rw [← hsome]
    · rw [← hsome]
    · have : m ∈ isort ConversationParser.msg_le raw := by rw [hs]; simp
      have : m ∈ raw := (mem_isort _ _ _).1 this
      rw [hraw] at this
      exact (List.mem_filter.1 this).1

theorem info_first_timestamp_isStr (msgs : List Message)
    (hstr : ∀ m ∈ msgs, m.timestamp.isStr = true) (info : SessionInfo)
    (hmem : info ∈ (group_by_session msgs).filterMap session_info_of) :
    info.first_timestamp.isStr = true := by
  rcases (session_info_spec msgs info hmem).2 with ⟨m, ms, _, _, hfirst, _, hmmem⟩
  rw [hfirst]
  exact hstr m hmmem

end SessionGrouper

/-- C8 counterexample: with two sessions whose first timestamps are a
string and a number, `session_info.sort(key=...)` compares `str` with
`int` and raises `TypeError`, so `get_session_info` returns no summary list
at all — the claim fails for this message list. -/
theorem C8_counterexample :
    SessionGrouper.get_session_info [msgStrTs, msgNumTs] = none := by decide

/-- C8 (amended): for every message list whose messages carry string
timestamps (as normal decoding produces), `get_session_info` returns
exactly one summary per session group (the groups are keyed by the distinct
session keys of the input), each summary's `duration_ms` is the last
message's `timestamp_ms` minus the first message's `timestamp_ms` of its
group sorted ascending by `timestamp_ms`, and the summaries are sorted
ascending by the first timestamp in its *string* form (lexicographic);
with mixed-type first timestamps the cross-session sort raises `TypeError`
and nothing is returned. -/
theorem C8_session_summaries_amended (msgs : List Message)
    (hstr : ∀ m ∈ msgs, m.timestamp.isStr = true) :
    ∃ infos, SessionGrouper.get_session_info msgs = some infos ∧
      infos.length = (SessionGrouper.group_by_session msgs).length ∧
      ((SessionGrouper.group_by_session msgs).map Prod.fst).Nodup ∧
      (∀ k, k ∈ (SessionGrouper.group_by_session msgs).map Prod.fst ↔
        ∃ m ∈ msgs, SessionGrouper.session_key m = k) ∧
      (∀ info ∈ infos,
        ∃ m ms, isort ConversationParser.msg_le
            (msgs.filter (fun x => decide (SessionGrouper.session_key x = info.session_id))) =
            m :: ms ∧
          info.message_count = (m :: ms).length ∧
          info.duration_ms = (ms.getLastD m).timestamp_ms - m.timestamp_ms) ∧
      infos.Pairwise
        (fun a b => SessionGrouper.jkey_le a.first_timestamp b.first_timestamp = true) := by
  have hcomp : SessionGrouper.all_comparable
      (((SessionGrouper.group_by_session msgs).filterMap
        SessionGrouper.session_info_of).map (fun i => i.first_timestamp)) = true := by
    refine SessionGrouper.all_comparable_of_str _ ?_
    intro k hk
    rcases List.mem_map.1 hk with ⟨info, hinfo, rfl⟩
    exact SessionGrouper.info_first_timestamp_isStr msgs hstr info hinfo
  refine ⟨isort (fun a b => SessionGrouper.jkey_le a.first_timestamp b.first_timestamp)
    ((SessionGrouper.group_by_session msgs).filterMap SessionGrouper.session_info_of),
    ?_, ?_, ?_, ?_, ?_, ?_⟩
  · simp only [SessionGrouper.get_session_info, hcomp, if_true]
  · rw [(isort_perm _ _).length_eq]
    refine SessionGrouper.filterMap_session_info_length _ ?_
    intro p hp
    rcases List.mem_map.1 hp with ⟨g, hg, hgp⟩
    rcases g with ⟨k, raw⟩
    rcases SessionGrouper.raw_bucket_eq_filter msgs k raw hg with ⟨_, hne⟩
    rw [← hgp]
    simp only [ne_eq]
    intro hnil
    have hlen := (isort_perm ConversationParser.msg_le raw).length_eq
    rw [hnil] at hlen
    exact hne (List.length_eq_zero.1 hlen.symm)
  · exact SessionGrouper.group_keys_nodup msgs
  · exact fun k => SessionGrouper.group_keys_mem_iff msgs k
  · intro info hinfo
    have hinfo' : info ∈ (SessionGrouper.group_by_session msgs).filterMap
        SessionGrouper.session_info_of := (mem_isort _ _ _).1 hinfo
    rcases (SessionGrouper.session_info_spec msgs info hinfo').2 with
      ⟨m, ms, hgrp, hcount, _, hdur, _⟩
    exact ⟨m, ms, hgrp, hcount, hdur⟩
  · refine pairwise_isort _ _ ?_ ?_
    · intro a ha b hb
      exact SessionGrouper.jkey_le_total_str _ _
        (SessionGrouper.info_first_timestamp_isStr msgs hstr a ha)
        (SessionGrouper.info_first_timestamp_isStr msgs hstr b hb)
    · intro a ha b hb c hc
      exact SessionGrouper.jkey_le_trans_str _ _ _
        (SessionGrouper.info_first_timestamp_isStr msgs hstr a ha)
        (SessionGrouper.info_first_timestamp_isStr msgs hstr b hb)
        (SessionGrouper.info_first_timestamp_isStr msgs hstr c hc)

/-- Witness for the amended C8 at a concrete two-message single-session
list. -/
theorem C8_session_summaries_amended_witness :
    ∃ infos, SessionGrouper.get_session_info [msgW1, msgW2] = some infos ∧
      infos.length = (SessionGrouper.group_by_session [msgW1, msgW2]).length ∧
      ((SessionGrouper.group_by_session [msgW1, msgW2]).map Prod.fst).Nodup ∧
      (∀ k, k ∈ (SessionGrouper.group_by_session [msgW1, msgW2]).map Prod.fst ↔
        ∃ m ∈ [msgW1, msgW2], SessionGrouper.session_key m = k) ∧
      (∀ info ∈ infos,
        ∃ m ms, isort ConversationParser.msg_le
            ([msgW1, msgW2].filter
              (fun x => decide (SessionGrouper.session_key x = info.session_id))) =
            m :: ms ∧
          info.message_count = (m :: ms).length ∧
          info.duration_ms = (ms.getLastD m).timestamp_ms - m.timestamp_ms) ∧
      infos.Pairwise
        (fun a b => SessionGrouper.jkey_le a.first_timestamp b.first_timestamp = true) :=
  C8_session_summaries_amended [msgW1, msgW2] (by decide)

namespace MessageTreeBuilder

theorem build_pass2_roots (pl : Nat → Option Nat) :
    ∀ (l : List Nat) (st : TreeState),
      (build_pass2 pl st l).roots = st.roots ++ l.filter (fun i => decide (pl i = none)) := by
  intro l
  induction l with
  | nil => intro st; simp [build_pass2]
  | cons i rest ih =>
    intro st
    cases h : pl i with
    | none => simp [build_pass2, h, ih, List.filter_cons]
    | some j => simp [build_pass2, h, ih, List.filter_cons]

theorem build_pass2_children (pl : Nat → Option Nat) :
    ∀ (l : List Nat) (st : TreeState) (k : Nat),
      (build_pass2 pl st l).children k =
        st.children k ++ l.filter (fun i => decide (pl i = some k)) := by
  intro l
  induction l with
  | nil => intro st k; simp [build_pass2]
  | cons i rest ih =>
    intro st k
    cases h : pl i with
    | none => simp [build_pass2, h, ih, List.filter_cons]
    | some j =>
      by_cases hk : j = k
      · subst hk
        simp [build_pass2, h, ih, List.filter_cons]
      · have hsome : ¬ (some j = some k) := fun hh => hk (by injection hh)
        have hkj : ¬ (k = j) := fun hh => hk hh.symm
        simp only [build_pass2, h, ih, List.filter_cons]
        simp [hsome, hkj]

theorem message_map_find_lt (msgs : List Message) (u : JValue) (j : Nat)
    (h : message_map_find msgs u = some j) : j < msgs.length := by
  have haux : ∀ (l : List (Nat × Message)) (acc : Option Nat),
      (∀ p ∈ l, p.1 < msgs.length) →
      (∀ i, acc = some i → i < msgs.length) →
      ∀ i, l.foldl (fun a p => if p.2.uuid = u then some p.1 else a) acc = some i →
        i < msgs.length := by
    intro l
    induction l with
    | nil => intro acc _ hacc i h; exact hacc i h
    | cons p rest ih =>
      intro acc hl hacc i h
      simp only [List.foldl_cons] at h
      refine ih _ (fun q hq => hl q (List.mem_cons.2 (Or.inr hq))) ?_ i h
      intro i' hi'
      by_cases hu : p.2.uuid = u
      · rw [if_pos hu] at hi'
        cases hi'
        exact hl p (List.mem_cons.2 (Or.inl rfl))
      · rw [if_neg hu] at hi'
        exact hacc i' hi'
  refine haux msgs.enum none ?_ (by intro i h; cases h) j h
  intro p hp
  rw [List.enum_eq_zip_range] at hp
  have := List.of_mem_zip hp
  exact List.mem_range.1 this.1

theorem place_of_lt (msgs : List Message) (i j : Nat)
    (h : place_of msgs i = some j) : j < msgs.length := by
  by_cases ht : (msgs.getD i default).parent_uuid.truthy
  · rw [place_of] at h
    simp only [ht, if_true] at h
    exact message_map_find_lt msgs _ j h
  · rw [place_of] at h
    simp only [ht, if_false, Bool.false_eq_true] at h
    cases h

theorem build_roots_perm (msgs : List Message) :
    (build msgs).roots.Perm
      ((List.range msgs.length).filter (fun i => decide (place_of msgs i = none))) := by
  have h1 : (build msgs).roots = isort (idx_le msgs)
      ((build_pass2 (place_of msgs) ⟨[], fun _ => []⟩ (List.range msgs.length)).roots) := rfl
  rw [h1, build_pass2_roots]
  simpa using isort_perm (idx_le msgs) _

theorem build_roots_mem (msgs : List Message) (i : Nat) :
    i ∈ (build msgs).roots ↔ i < msgs.length ∧ place_of msgs i = none := by
  rw [(build_roots_perm msgs).mem_iff]
  simp [List.mem_filter]

theorem build_roots_nodup (msgs : List Message) : (build msgs).roots.Nodup :=
  ((build_roots_perm msgs).nodup_iff).2 ((List.nodup_range _).filter _)

theorem scr_perm (msgs : List Message) :
    ∀ (fuel : Nat) (ch : Nat → List Nat) (wl : List Nat) (k : Nat),
      (sort_children_rec msgs fuel ch wl k).Perm (ch k) := by
  intro fuel
  induction fuel with
  | zero => intro ch wl k; exact List.Perm.refl _
  | succ fuel ih =>
    intro ch wl
    induction wl generalizing ch with
    | nil => intro k; exact List.Perm.refl _
    | cons i rest ihl =>
      intro k
      have hstep : sort_children_rec msgs (fuel + 1) ch (i :: rest) =
          sort_children_rec msgs (fuel + 1)
            (if ch i = [] then ch
             else sort_children_rec msgs fuel
               (fun k' => if k' = i then isort (idx_le msgs) (ch i) else ch k')
               (isort (idx_le msgs) (ch i))) rest := by
        by_cases hnil : ch i = [] <;>
          simp [sort_children_rec, List.foldl_cons, hnil]
      rw [hstep]
      by_cases hnil : ch i = []
      · rw [if_pos hnil]
        exact ihl ch k
      · rw [if_neg hnil]
        refine (ihl _ k).trans ?_
        refine (ih _ _ k).trans ?_
        by_cases hk : k = i
        · subst hk
          simp only [if_pos rfl]
          exact isort_perm _ _
        · simp only [if_neg hk]
          exact List.Perm.refl _

theorem build_children_perm (msgs : List Message) (k : Nat) :
    ((build msgs).children k).Perm
      ((List.range msgs.length).filter (fun i => decide (place_of msgs i = some k))) := by
  have h1 : (build msgs).children k = sort_children_rec msgs msgs.length
      ((build_pass2 (place_of msgs) ⟨[], fun _ => []⟩ (List.range msgs.length)).children)
      (isort (idx_le msgs)
        ((build_pass2 (place_of msgs) ⟨[], fun _ => []⟩ (List.range msgs.length)).roots)) k :=
    rfl
  rw [h1]
  refine (scr_perm msgs _ _ _ k).trans ?_
  rw [build_pass2_children]
  simp

theorem build_children_mem (msgs : List Message) (c k : Nat) :
    c ∈ (build msgs).children k ↔ c < msgs.length ∧ place_of msgs c = some k := by
  rw [(build_children_perm msgs k).mem_iff]
  simp [List.mem_filter]

theorem build_children_nodup (msgs : List Message) (k : Nat) :
    ((build msgs).children k).Nodup :=
  ((build_children_perm msgs k).nodup_iff).2 ((List.nodup_range _).filter _)

end MessageTreeBuilder

theorem count_eq_ite_of_nodup {α : Type _} [DecidableEq α] (l : List α) (hnd : l.Nodup)
    (x : α) : l.count x = if x ∈ l then 1 else 0 := by
  by_cases h : x ∈ l
  · rw [if_pos h]
    have h1 := List.nodup_iff_count_le_one.1 hnd x
    have h2 : l.count x ≠ 0 := fun hc => (List.count_eq_zero.1 hc) h
    omega
  · rw [if_neg h]
    exact List.count_eq_zero.2 h

theorem count_flatMap {α β : Type _} [DecidableEq β] (l : List α) (f : α → List β)
    (x : β) : (l.flatMap f).count x = (l.map (fun a => (f a).count x)).sum := by
  induction l with
  | nil => rfl
  | cons a rest ih => simp [List.flatMap_cons, List.count_append, ih]

theorem sum_ite_unique {α : Type _} (l : List α) (p : α → Prop) [DecidablePred p]
    (hnd : l.Nodup) (huniq : ∀ a ∈ l, ∀ b ∈ l, p a → p b → a = b) :
    (l.map (fun a => if p a then 1 else 0)).sum = if ∃ a ∈ l, p a then 1 else 0 := by
  induction l with
  | nil => simp
  | cons a rest ih =>
    rcases List.nodup_cons.1 hnd with ⟨ha, hrest⟩
    by_cases hpa : p a
    · have hsum0 : (rest.map (fun b => if p b then 1 else 0)).sum = 0 := by
        refine List.sum_eq_zero ?_
        intro v hv
        rcases List.mem_map.1 hv with ⟨b, hb, rfl⟩
        have : ¬ p b := fun hpb =>
          ha ((huniq a (by simp) b (by simp [hb]) hpa hpb) ▸ hb)
        simp [this]
      have hex : ∃ b ∈ a :: rest, p b := ⟨a, by simp, hpa⟩
      simp [hpa, hsum0, hex]
    · have hiff : (∃ b ∈ a :: rest, p b) ↔ ∃ b ∈ rest, p b := by
        constructor
        · rintro ⟨b, hb, hpb⟩
          rcases List.mem_cons.1 hb with rfl | hb'
          · exact absurd hpb hpa
          · exact ⟨b, hb', hpb⟩
        · rintro ⟨b, hb, hpb⟩
          exact ⟨b, by simp [hb], hpb⟩
      simp only [List.map_cons, List.sum_cons, hpa, if_false]
      rw [ih hrest (fun x hx y hy => huniq x (by simp [hx]) y (by simp [hy]))]
      by_cases hex : ∃ b ∈ rest, p b <;> simp [hex, hiff, hpa]

namespace MessageTreeBuilder

theorem partition_count (msgs : List Message) (x : Nat) :
    ((build msgs).roots ++ (List.range msgs.length).flatMap (build msgs).children).count x =
      (List.range msgs.length).count x := by
  rw [List.count_append, count_flatMap]
  have hroots : (build msgs).roots.count x =
      if x < msgs.length ∧ place_of msgs x = none then 1 else 0 := by
    rw [count_eq_ite_of_nodup _ (build_roots_nodup msgs) x]
    by_cases h : x < msgs.length ∧ place_of msgs x = none <;>
      simp [build_roots_mem, h]
  have hch : ∀ j, ((build msgs).children j).count x =
      if x < msgs.length ∧ place_of msgs x = some j then 1 else 0 := by
    intro j
    rw [count_eq_ite_of_nodup _ (build_children_nodup msgs j) x]
    by_cases h : x < msgs.length ∧ place_of msgs x = some j <;>
      simp [build_children_mem, h]
  have hsum : ((List.range msgs.length).map
      (fun j => ((build msgs).children j).count x)).sum =
      if ∃ j ∈ List.range msgs.length, x < msgs.length ∧ place_of msgs x = some j
      then 1 else 0 := by
    rw [List.map_congr_left (fun j _ => hch j)]
    refine sum_ite_unique (List.range msgs.length)
      (fun j => x < msgs.length ∧ place_of msgs x = some j) (List.nodup_range _) ?_
    rintro a _ b _ ⟨_, hpa⟩ ⟨_, hpb⟩
    rw [hpa] at hpb
    injection hpb
  have hrange : (List.range msgs.length).count x = if x < msgs.length then 1 else 0 := by
    rw [count_eq_ite_of_nodup _ (List.nodup_range _) x]
    simp [List.mem_range]
  rw [hroots, hsum, hrange]
  by_cases hx : x < msgs.length
  · cases hpl : place_of msgs x with
    | none => simp [hx]
    | some j =>
      have hj := place_of_lt msgs x j hpl
      have hex' : ∃ j' ∈ List.range msgs.length, x < msgs.length ∧ some j = some j' :=
        ⟨j, List.mem_range.2 hj, hx, rfl⟩
      rw [if_pos hex']
      simp [hx]
  · have hnoex : ¬ ∃ j ∈ List.range msgs.length,
        x < msgs.length ∧ place_of msgs x = some j := by
      rintro ⟨j, _, hxn, _⟩
      exact hx hxn
    have h0 : ¬ (x < msgs.length ∧ place_of msgs x = none) := fun h => hx h.1
    rw [if_neg hnoex, if_neg h0, if_neg hx]

end MessageTreeBuilder

/-- C2: after `build`, every message occupies exactly one place in the
tree: the multiset of the roots together with all parents' children lists
is exactly the set of input message positions (no message duplicated, none
lost), and a message whose (truthy) `parent_uuid` is dangling — absent
from `message_map` — becomes a root. -/
theorem C2_build_partition (msgs : List Message) :
    ((MessageTreeBuilder.build msgs).roots ++
        (List.range msgs.length).flatMap (MessageTreeBuilder.build msgs).children).Perm
      (List.range msgs.length) ∧
    ∀ i, i < msgs.length →
      (msgs.getD i default).parent_uuid.truthy = true →
      MessageTreeBuilder.message_map_find msgs (msgs.getD i default).parent_uuid = none →
      i ∈ (MessageTreeBuilder.build msgs).roots := by
  constructor
  · exact List.perm_iff_count.2 (fun x => MessageTreeBuilder.partition_count msgs x)
  · intro i hi htr hfind
    refine (MessageTreeBuilder.build_roots_mem msgs i).2 ⟨hi, ?_⟩
    rw [MessageTreeBuilder.place_of]
    simp only [htr, if_true, hfind]

/-- Witness for C2 at a concrete two-message list containing a
dangling-parent message. -/
theorem C2_build_partition_witness :
    ((MessageTreeBuilder.build [msgRoot, msgDangling]).roots ++
        (List.range (List.length [msgRoot, msgDangling])).flatMap
          (MessageTreeBuilder.build [msgRoot, msgDangling]).children).Perm
      (List.range (List.length [msgRoot, msgDangling])) ∧
    1 ∈ (MessageTreeBuilder.build [msgRoot, msgDangling]).roots :=
  ⟨(C2_build_partition [msgRoot, msgDangling]).1,
   (C2_build_partition [msgRoot, msgDangling]).2 1 (by decide) (by decide) (by decide)⟩

namespace MessageTreeBuilder

theorem ancestor_add (pl : Nat → Option Nat) (a b : Nat) :
    ∀ i, ancestor pl (a + b) i = (ancestor pl a i).bind (ancestor pl b) := by
  induction a with
  | zero => intro i; simp [ancestor]
  | succ a ih =>
    intro i
    rw [Nat.succ_add]
    cases hp : pl i with
    | none => simp [ancestor, hp]
    | some j => simp [ancestor, hp, ih j]

theorem ancestor_one (pl : Nat → Option Nat) (i : Nat) : ancestor pl 1 i = pl i := by
  cases hp : pl i <;> simp [ancestor, hp]

theorem ancestor_succ_back (pl : Nat → Option Nat) (k i : Nat) :
    ancestor pl (k + 1) i = (ancestor pl k i).bind pl := by
  rw [ancestor_add pl k 1]
  cases hx : ancestor pl k i with
  | none => rfl
  | some y => simp [ancestor_one]

theorem ancestor_prefix_isSome (pl : Nat → Option Nat) (a b i : Nat)
    (h : (ancestor pl (a + b) i).isSome = true) : (ancestor pl a i).isSome = true := by
  rw [ancestor_add] at h
  cases hx : ancestor pl a i with
  | none => rw [hx] at h; simp at h
  | some y => simp

theorem ancestor_cycle_mul (pl : Nat → Option Nat) (k i : Nat)
    (h : ancestor pl k i = some i) : ∀ q, ancestor pl (q * k) i = some i := by
  intro q
  induction q with
  | zero => simp [ancestor]
  | succ q ih =>
    have hq : (q + 1) * k = q * k + k := by ring
    rw [hq, ancestor_add, ih]
    simpa using h

theorem on_cycle_isSome (pl : Nat → Option Nat) (x : Nat) (h : on_cycle pl x) :
    ∀ m, (ancestor pl m x).isSome = true := by
  rcases h with ⟨k, hk, hck⟩
  intro m
  have h1 : ancestor pl (m * k) x = some x := ancestor_cycle_mul pl k x hck m
  have hle : m ≤ m * k := Nat.le_mul_of_pos_right m hk
  have hsplit : m + (m * k - m) = m * k := by omega
  refine ancestor_prefix_isSome pl m (m * k - m) x ?_
  rw [hsplit, h1]
  rfl

theorem reach_b_chain (ch : Nat → List Nat) (pl : Nat → Option Nat)
    (hch : ∀ c j, c ∈ ch j → pl c = some j) :
    ∀ (fuel x i : Nat), reach_b ch fuel x i = true →
      ∃ k, k < fuel ∧ ancestor pl k x = some i := by
  intro fuel
  induction fuel with
  | zero => intro x i h; simp [reach_b] at h
  | succ fuel ih =>
    intro x i h
    simp only [reach_b, Bool.or_eq_true, decide_eq_true_eq, List.any_eq_true] at h
    rcases h with rfl | ⟨c, hc, hr⟩
    · exact ⟨0, Nat.succ_pos _, by simp [ancestor]⟩
    · rcases ih x c hr with ⟨k, hkf, ha⟩
      refine ⟨k + 1, by omega, ?_⟩
      rw [ancestor_succ_back, ha]
      simpa using hch c i hc

theorem no_return_root (pl : Nat → Option Nat) (r : Nat) (hr : pl r = none) :
    no_return pl r := by
  intro k hk hcon
  cases k with
  | zero => omega
  | succ k => simp [ancestor, hr] at hcon

theorem no_return_child (pl : Nat → Option Nat) (i c : Nat) (hpc : pl c = some i)
    (hnr : no_return pl i) : no_return pl c := by
  intro m hm hcyc
  have h1 : ancestor pl (m + 1) c = ancestor pl m i := by
    have hc : m + 1 = 1 + m := by omega
    rw [hc, ancestor_add, ancestor_one, hpc]
    rfl
  have h2 : ancestor pl (m + 1) c = some i := by
    rw [ancestor_succ_back, hcyc]
    simpa using hpc
  exact hnr m hm (by rw [← h1, h2])

theorem reach_child_unique (msgs : List Message) (i : Nat)
    (hnr : no_return (place_of msgs) i) (fuel x c₁ c₂ : Nat)
    (hc₁ : c₁ ∈ (build msgs).children i) (hc₂ : c₂ ∈ (build msgs).children i)
    (h₁ : reach_b (build msgs).children fuel x c₁ = true)
    (h₂ : reach_b (build msgs).children fuel x c₂ = true) : c₁ = c₂ := by
  have hch : ∀ c j, c ∈ (build msgs).children j → place_of msgs c = some j :=
    fun c j hc => ((build_children_mem msgs c j).1 hc).2
  rcases reach_b_chain _ _ hch fuel x c₁ h₁ with ⟨k₁, _, ha₁⟩
  rcases reach_b_chain _ _ hch fuel x c₂ h₂ with ⟨k₂, _, ha₂⟩
  have key : ∀ (a b ka kb : Nat), place_of msgs a = some i → place_of msgs b = some i →
      ancestor (place_of msgs) ka x = some a → ancestor (place_of msgs) kb x = some b →
      ka ≤ kb → a = b := by
    intro a b ka kb hpa hpb haa hab hle
    rcases Nat.eq_or_lt_of_le hle with rfl | hlt
    · rw [haa] at hab
      injection hab
    · exfalso
      have hm : ancestor (place_of msgs) (kb - ka) a = some b := by
        have hsplit : ka + (kb - ka) = kb := by omega
        rw [← hsplit, ancestor_add, haa] at hab
        simpa using hab
      have hm_pos : 0 < kb - ka := by omega
      have h1 : ancestor (place_of msgs) ((kb - ka) + 1) a = some i := by
        rw [ancestor_succ_back, hm]
        simpa using hpb
      have h2 : ancestor (place_of msgs) ((kb - ka) + 1) a =
          ancestor (place_of msgs) (kb - ka) i := by
        have hc : (kb - ka) + 1 = 1 + (kb - ka) := by omega
        rw [hc, ancestor_add, ancestor_one, hpa]
        rfl
      exact hnr (kb - ka) hm_pos (by rw [← h2, h1])
  rcases Nat.le_total k₁ k₂ with hle | hle
  · exact key c₁ c₂ k₁ k₂ (hch _ _ hc₁) (hch _ _ hc₂) ha₁ ha₂ hle
  · exact (key c₂ c₁ k₂ k₁ (hch _ _ hc₂) (hch _ _ hc₁) ha₂ ha₁ hle).symm

theorem traverse_count (msgs : List Message) :
    ∀ (fuel i : Nat), no_return (place_of msgs) i → ∀ (x d : Nat),
      (((traverse_aux (build msgs).children fuel i d).map Prod.fst).count x) =
        if reach_b (build msgs).children fuel x i then 1 else 0 := by
  have hch : ∀ c j, c ∈ (build msgs).children j → place_of msgs c = some j :=
    fun c j hc => ((build_children_mem msgs c j).1 hc).2
  intro fuel
  induction fuel with
  | zero => intro i _ x d; simp [traverse_aux, reach_b]
  | succ fuel ih =>
    intro i hnr x d
    have hmap : ((traverse_aux (build msgs).children (fuel + 1) i d).map Prod.fst) =
        i :: ((build msgs).children i).flatMap
          (fun c => (traverse_aux (build msgs).children fuel c (d + 1)).map Prod.fst) := by
      simp [traverse_aux, List.map_flatMap]
    rw [hmap, List.count_cons, count_flatMap]
    have hterm : ∀ c ∈ (build msgs).children i,
        (fun c => ((traverse_aux (build msgs).children fuel c (d + 1)).map Prod.fst).count x) c =
          (fun c => if reach_b (build msgs).children fuel x c then 1 else 0) c :=
      fun c hc => ih c (no_return_child _ i c (hch c i hc) hnr) x (d + 1)
    rw [List.map_congr_left hterm]
    rw [sum_ite_unique ((build msgs).children i)
      (fun c => reach_b (build msgs).children fuel x c = true)
      (build_children_nodup msgs i)
      (fun c₁ hm₁ c₂ hm₂ h₁ h₂ => reach_child_unique msgs i hnr fuel x c₁ c₂ hm₁ hm₂ h₁ h₂)]
    by_cases hxi : x = i
    · subst hxi
      have hnone : ¬ ∃ c ∈ (build msgs).children x,
          reach_b (build msgs).children fuel x c = true := by
        rintro ⟨c, hc, hr⟩
        rcases reach_b_chain _ _ hch fuel x c hr with ⟨k, _, ha⟩
        have hstep : ancestor (place_of msgs) (k + 1) x = some x := by
          rw [ancestor_succ_back, ha]
          simpa using hch c x hc
        exact hnr (k + 1) (Nat.succ_pos k) hstep
      rw [if_neg hnone]
      have hrt : reach_b (build msgs).children (fuel + 1) x x = true := by
        simp [reach_b]
      rw [if_pos hrt]
      simp
    · have hbeq : (i == x) = false :=
        beq_eq_false_iff_ne.2 (fun h => hxi h.symm)
      by_cases hany : ∃ c ∈ (build msgs).children i,
          reach_b (build msgs).children fuel x c = true
      · rw [if_pos hany]
        have hrt : reach_b (build msgs).children (fuel + 1) x i = true := by
          simp only [reach_b, Bool.or_eq_true, decide_eq_true_eq, List.any_eq_true]
          exact Or.inr hany
        rw [if_pos hrt, hbeq]
        simp
      · rw [if_neg hany]
        have hrf : ¬ (reach_b (build msgs).children (fuel + 1) x i = true) := by
          simp only [reach_b, Bool.or_eq_true, decide_eq_true_eq, List.any_eq_true]
          rintro (rfl | hex)
          · exact hxi rfl
          · exact hany hex
        rw [if_neg hrf, hbeq]
        simp

theorem roots_no_return (msgs : List Message) (r : Nat) (hr : r ∈ (build msgs).roots) :
    no_return (place_of msgs) r :=
  no_return_root _ r ((build_roots_mem msgs r).1 hr).2

theorem reach_root_unique (msgs : List Message) (fuel x r₁ r₂ : Nat)
    (hr₁ : r₁ ∈ (build msgs).roots) (hr₂ : r₂ ∈ (build msgs).roots)
    (h₁ : reach_b (build msgs).children fuel x r₁ = true)
    (h₂ : reach_b (build msgs).children fuel x r₂ = true) : r₁ = r₂ := by
  have hch : ∀ c j, c ∈ (build msgs).children j → place_of msgs c = some j :=
    fun c j hc => ((build_children_mem msgs c j).1 hc).2
  rcases reach_b_chain _ _ hch fuel x r₁ h₁ with ⟨k₁, _, ha₁⟩
  rcases reach_b_chain _ _ hch fuel x r₂ h₂ with ⟨k₂, _, ha₂⟩
  have key : ∀ (a b ka kb : Nat), place_of msgs a = none →
      ancestor (place_of msgs) ka x = some a → ancestor (place_of msgs) kb x = some b →
      ka ≤ kb → a = b := by
    intro a b ka kb hpa haa hab hle
    rcases Nat.eq_or_lt_of_le hle with rfl | hlt
    · rw [haa] at hab
      injection hab
    · exfalso
      have hm : ancestor (place_of msgs) (kb - ka) a = some b := by
        have hsplit : ka + (kb - ka) = kb := by omega
        rw [← hsplit, ancestor_add, haa] at hab
        simpa using hab
      have hm_pos : 0 < kb - ka := by omega
      rcases Nat.exists_eq_succ_of_ne_zero (by omega : kb - ka ≠ 0) with ⟨m', hm'⟩
      rw [hm'] at hm
      simp [ancestor, hpa] at hm
  rcases Nat.le_total k₁ k₂ with hle | hle
  · exact key r₁ r₂ k₁ k₂ ((build_roots_mem msgs r₁).1 hr₁).2 ha₁ ha₂ hle
  · exact (key r₂ r₁ k₂ k₁ ((build_roots_mem msgs r₂).1 hr₂).2 ha₂ ha₁ hle).symm

theorem flatten_count (msgs : List Message) (fuel x : Nat) :
    ((flatten_with_depth msgs fuel).map Prod.fst).count x =
      if ∃ r ∈ (build msgs).roots, reach_b (build msgs).children fuel x r = true
      then 1 else 0 := by
  have hmap : (flatten_with_depth msgs fuel).map Prod.fst =
      (build msgs).roots.flatMap
        (fun r => (traverse_aux (build msgs).children fuel r 0).map Prod.fst) := by
    simp [flatten_with_depth, List.map_flatMap]
  rw [hmap, count_flatMap]
  have hterm : ∀ r ∈ (build msgs).roots,
      (fun r => ((traverse_aux (build msgs).children fuel r 0).map Prod.fst).count x) r =
        (fun r => if reach_b (build msgs).children fuel x r then 1 else 0) r :=
    fun r hr => traverse_count msgs fuel r (roots_no_return msgs r hr) x 0
  rw [List.map_congr_left hterm]
  exact sum_ite_unique ((build msgs).roots)
    (fun r => reach_b (build msgs).children fuel x r = true)
    (build_roots_nodup msgs)
    (fun r₁ hm₁ r₂ hm₂ h₁ h₂ => reach_root_unique msgs fuel x r₁ r₂ hm₁ hm₂ h₁ h₂)

theorem flatten_nodup (msgs : List Message) (fuel : Nat) :
    ((flatten_with_depth msgs fuel).map Prod.fst).Nodup := by
  refine List.nodup_iff_count_le_one.2 ?_
  intro x
  rw [flatten_count]
  by_cases h : ∃ r ∈ (build msgs).roots,
      reach_b (build msgs).children fuel x r = true <;> simp [h]

theorem cycle_not_reach_root (msgs : List Message) (x r fuel : Nat)
    (hcyc : on_cycle (place_of msgs) x) (hr : r ∈ (build msgs).roots) :
    reach_b (build msgs).children fuel x r = false := by
  have hch : ∀ c j, c ∈ (build msgs).children j → place_of msgs c = some j :=
    fun c j hc => ((build_children_mem msgs c j).1 hc).2
  by_contra hb
  have hb' : reach_b (build msgs).children fuel x r = true := by
    cases hh : reach_b (build msgs).children fuel x r
    · exact absurd hh hb
    · rfl
  rcases reach_b_chain _ _ hch fuel x r hb' with ⟨k, _, ha⟩
  have hnone : ancestor (place_of msgs) (k + 1) x = none := by
    rw [ancestor_succ_back, ha]
    simpa using ((build_roots_mem msgs r).1 hr).2
  have hsome := on_cycle_isSome (place_of msgs) x hcyc (k + 1)
  rw [hnone] at hsome
  simp at hsome

theorem cycle_omitted (msgs : List Message) (x fuel : Nat)
    (hcyc : on_cycle (place_of msgs) x) :
    x ∉ (flatten_with_depth msgs fuel).map Prod.fst := by
  have hc : ((flatten_with_depth msgs fuel).map Prod.fst).count x = 0 := by
    rw [flatten_count]
    have hnone : ¬ ∃ r ∈ (build msgs).roots,
        reach_b (build msgs).children fuel x r = true := by
      rintro ⟨r, hr, hb⟩
      rw [cycle_not_reach_root msgs x r fuel hcyc hr] at hb
      exact Bool.noConfusion hb
    rw [if_neg hnone]
  exact List.count_eq_zero.1 hc

end MessageTreeBuilder

theorem flatMap_congr_left {α β : Type _} (l : List α) (f g : α → List β)
    (h : ∀ a ∈ l, f a = g a) : l.flatMap f = l.flatMap g := by
  induction l with
  | nil => rfl
  | cons a rest ih =>
    simp only [List.flatMap_cons]
    rw [h a (by simp), ih (fun x hx => h x (by simp [hx]))]

namespace MessageTreeBuilder

theorem grounded_at_root (pl : Nat → Option Nat) (r : Nat) (hr : pl r = none) :
    grounded_at pl r 0 :=
  ⟨1, by simp [ground_depth, hr]⟩

theorem grounded_at_child (pl : Nat → Option Nat) (i c g : Nat) (hpc : pl c = some i)
    (hgr : grounded_at pl i g) : grounded_at pl c (g + 1) := by
  rcases hgr with ⟨f, hf⟩
  exact ⟨f + 1, by simp [ground_depth, hpc, hf]⟩

theorem grounded_step (pl : Nat → Option Nat) (y s : Nat)
    (h : grounded_at pl y (s + 1)) : ∃ z, pl y = some z ∧ grounded_at pl z s := by
  rcases h with ⟨f, hf⟩
  cases f with
  | zero => simp [ground_depth] at hf
  | succ f =>
    cases hp : pl y with
    | none => simp [ground_depth, hp] at hf
    | some z =>
      simp only [ground_depth, hp] at hf
      rcases Option.map_eq_some'.1 hf with ⟨s', hs', hss⟩
      have hs : s' = s := by omega
      exact ⟨z, rfl, ⟨f, hs ▸ hs'⟩⟩

theorem ground_depth_mono (pl : Nat → Option Nat) :
    ∀ (f : Nat) (i g : Nat), ground_depth pl f i = some g →
      ∀ f', f ≤ f' → ground_depth pl f' i = some g := by
  intro f
  induction f with
  | zero => intro i g h; simp [ground_depth] at h
  | succ f ih =>
    intro i g h f' hf'
    cases f' with
    | zero => omega
    | succ f'' =>
      cases hp : pl i with
      | none =>
        simp only [ground_depth, hp] at h ⊢
        exact h
      | some j =>
        simp only [ground_depth, hp] at h ⊢
        rcases Option.map_eq_some'.1 h with ⟨g', hg', hgg⟩
        rw [ih j g' hg' f'' (by omega)]
        simp [hgg]

theorem grounded_uniq (pl : Nat → Option Nat) (i g₁ g₂ : Nat)
    (h₁ : grounded_at pl i g₁) (h₂ : grounded_at pl i g₂) : g₁ = g₂ := by
  rcases h₁ with ⟨f₁, h₁⟩
  rcases h₂ with ⟨f₂, h₂⟩
  have e₁ := ground_depth_mono pl f₁ i g₁ h₁ (max f₁ f₂) (le_max_left _ _)
  have e₂ := ground_depth_mono pl f₂ i g₂ h₂ (max f₁ f₂) (le_max_right _ _)
  rw [e₁] at e₂
  injection e₂

theorem grounded_chain (msgs : List Message) (i g : Nat) (hin : i < msgs.length)
    (hgr : grounded_at (place_of msgs) i g) :
    ∀ t, t ≤ g → ∃ y, ancestor (place_of msgs) t i = some y ∧ y < msgs.length ∧
      grounded_at (place_of msgs) y (g - t) := by
  intro t
  induction t with
  | zero =>
    intro _
    exact ⟨i, by simp [ancestor], hin, by simpa using hgr⟩
  | succ t iht =>
    intro ht
    rcases iht (by omega) with ⟨y, hay, hyn, hgy⟩
    have hgt : g - t = (g - (t + 1)) + 1 := by omega
    rw [hgt] at hgy
    rcases grounded_step _ y _ hgy with ⟨z, hpz, hgz⟩
    refine ⟨z, ?_, place_of_lt msgs y z hpz, hgz⟩
    rw [ancestor_succ_back, hay]
    simpa using hpz

theorem grounded_lt (msgs : List Message) (i g : Nat) (hin : i < msgs.length)
    (hgr : grounded_at (place_of msgs) i g) : g < msgs.length := by
  have hchain := grounded_chain msgs i g hin hgr
  have hF : ∀ t : Fin (g + 1), (ancestor (place_of msgs) t.val i).getD 0 < msgs.length := by
    intro t
    rcases hchain t.val (by omega) with ⟨y, hy, hyn, _⟩
    rw [hy]
    simpa using hyn
  have hinj : Function.Injective
      (fun t : Fin (g + 1) => (⟨(ancestor (place_of msgs) t.val i).getD 0, hF t⟩ :
        Fin msgs.length)) := by
    intro t₁ t₂ hEq
    rcases hchain t₁.val (by omega) with ⟨y₁, hy₁, _, hg₁⟩
    rcases hchain t₂.val (by omega) with ⟨y₂, hy₂, _, hg₂⟩
    have hv := congrArg Fin.val hEq
    simp only [hy₁, hy₂, Option.getD_some] at hv
    subst hv
    have hgg := grounded_uniq _ y₁ _ _ hg₁ hg₂
    have ht₁ : t₁.val ≤ g := by omega
    have ht₂ : t₂.val ≤ g := by omega
    exact Fin.ext (by omega)
  have hcard := Fintype.card_le_of_injective _ hinj
  simpa using hcard

theorem traverse_stab (msgs : List Message) :
    ∀ (b : Nat), ∀ (g i : Nat), msgs.length ≤ g + b → i < msgs.length →
      grounded_at (place_of msgs) i g →
      ∀ (d fuel : Nat), b ≤ fuel →
        traverse_aux (build msgs).children fuel i d =
          traverse_aux (build msgs).children b i d := by
  intro b
  induction b using Nat.strong_induction_on with
  | _ b ih =>
    intro g i hgb hin hgr d fuel hfuel
    cases b with
    | zero =>
      exfalso
      have := grounded_lt msgs i g hin hgr
      omega
    | succ b =>
      cases fuel with
      | zero => omega
      | succ fuel =>
        simp only [traverse_aux]
        congr 1
        refine flatMap_congr_left _ _ _ ?_
        intro c hc
        rcases (build_children_mem msgs c i).1 hc with ⟨hcn, hpc⟩
        have hgc : grounded_at (place_of msgs) c (g + 1) :=
          grounded_at_child _ i c (g := g) hpc hgr
        exact ih b (by omega) (g + 1) c (by omega) hcn hgc (d + 1) fuel (by omega)

theorem flatten_stab (msgs : List Message) (fuel : Nat) (hf : msgs.length ≤ fuel) :
    flatten_with_depth msgs fuel = flatten_with_depth msgs msgs.length := by
  unfold flatten_with_depth
  refine flatMap_congr_left _ _ _ ?_
  intro r hr
  rcases (build_roots_mem msgs r).1 hr with ⟨hrn, hpl⟩
  exact traverse_stab msgs msgs.length 0 r (by omega) hrn
    (grounded_at_root _ r hpl) 0 fuel hf

theorem get_depth_stab (msgs : List Message) :
    ∀ (b : Nat), ∀ (g i : Nat), msgs.length ≤ g + b → i < msgs.length →
      grounded_at (place_of msgs) i g →
      ∀ (d fuel : Nat), b ≤ fuel →
        get_depth_aux (build msgs).children fuel i d =
          get_depth_aux (build msgs).children b i d := by
  intro b
  induction b using Nat.strong_induction_on with
  | _ b ih =>
    intro g i hgb hin hgr d fuel hfuel
    cases b with
    | zero =>
      exfalso
      have := grounded_lt msgs i g hin hgr
      omega
    | succ b =>
      cases fuel with
      | zero => omega
      | succ fuel =>
        simp only [get_depth_aux]
        by_cases hnil : (build msgs).children i = []
        · rw [if_pos hnil, if_pos hnil]
        · rw [if_neg hnil, if_neg hnil]
          congr 1
          refine List.map_congr_left ?_
          intro c hc
          rcases (build_children_mem msgs c i).1 hc with ⟨hcn, hpc⟩
          have hgc : grounded_at (place_of msgs) c (g + 1) :=
            grounded_at_child _ i c (g := g) hpc hgr
          exact ih b (by omega) (g + 1) c (by omega) hcn hgc (d + 1) fuel (by omega)

theorem max_depth_stab (msgs : List Message) (fuel : Nat) (hf : msgs.length ≤ fuel) :
    max_depth msgs fuel = max_depth msgs msgs.length := by
  unfold max_depth
  by_cases hroots : (build msgs).roots = []
  · rw [if_pos hroots, if_pos hroots]
  · rw [if_neg hroots, if_neg hroots]
    congr 1
    refine List.map_congr_left ?_
    intro r hr
    rcases (build_roots_mem msgs r).1 hr with ⟨hrn, hpl⟩
    exact get_depth_stab msgs msgs.length 0 r (by omega) hrn
      (grounded_at_root _ r hpl) 0 fuel hf

theorem scr_nil (msgs : List Message) (fuel : Nat) (ch : Nat → List Nat) :
    sort_children_rec msgs fuel ch [] = ch := by
  cases fuel <;> simp [sort_children_rec]

theorem scr_cons (msgs : List Message) (fuel : Nat) (ch : Nat → List Nat)
    (i : Nat) (rest : List Nat) :
    sort_children_rec msgs (fuel + 1) ch (i :: rest) =
      sort_children_rec msgs (fuel + 1)
        (if ch i = [] then ch
         else sort_children_rec msgs fuel
           (fun k => if k = i then isort (idx_le msgs) (ch i) else ch k)
           (isort (idx_le msgs) (ch i))) rest := by
  by_cases hnil : ch i = [] <;>
    simp [sort_children_rec, List.foldl_cons, hnil]

theorem scr_stab (msgs : List Message) :
    ∀ (b : Nat), ∀ (g : Nat), msgs.length ≤ g + b →
      ∀ (wl : List Nat),
        (∀ i ∈ wl, i < msgs.length ∧ grounded_at (place_of msgs) i g) →
      ∀ (ch : Nat → List Nat),
        (∀ c k, c ∈ ch k ↔ (c < msgs.length ∧ place_of msgs c = some k)) →
      ∀ fuel, b ≤ fuel →
        sort_children_rec msgs fuel ch wl = sort_children_rec msgs b ch wl := by
  intro b
  induction b using Nat.strong_induction_on with
  | _ b ih =>
    intro g hgb wl
    induction wl with
    | nil =>
      intro _ ch _ fuel _
      rw [scr_nil, scr_nil]
    | cons i rest ihwl =>
      intro hwl ch hch fuel hfuel
      cases b with
      | zero =>
        exfalso
        have := grounded_lt msgs i g (hwl i (by simp)).1 (hwl i (by simp)).2
        omega
      | succ b =>
        cases fuel with
        | zero => omega
        | succ fuel =>
          rw [scr_cons, scr_cons]
          have hstep :
              (if ch i = [] then ch
               else sort_children_rec msgs fuel
                 (fun k => if k = i then isort (idx_le msgs) (ch i) else ch k)
                 (isort (idx_le msgs) (ch i))) =
              (if ch i = [] then ch
               else sort_children_rec msgs b
                 (fun k => if k = i then isort (idx_le msgs) (ch i) else ch k)
                 (isort (idx_le msgs) (ch i))) := by
            by_cases hnil : ch i = []
            · rw [if_pos hnil, if_pos hnil]
            · rw [if_neg hnil, if_neg hnil]
              refine ih b (by omega) (g + 1) (by omega) _ ?_ _ ?_ fuel (by omega)
              · intro c hc
                have hc' : c ∈ ch i := (mem_isort _ _ c).1 hc
                rcases (hch c i).1 hc' with ⟨hcn, hpc⟩
                exact ⟨hcn, grounded_at_child _ i c (g := g) hpc (hwl i (by simp)).2⟩
              · intro c k
                by_cases hk : k = i
                · subst hk
                  rw [if_pos rfl, mem_isort]
                  exact hch c k
                · rw [if_neg hk]
                  exact hch c k
          rw [hstep]
          set ch' := (if ch i = [] then ch
            else sort_children_rec msgs b
              (fun k => if k = i then isort (idx_le msgs) (ch i) else ch k)
              (isort (idx_le msgs) (ch i))) with hchdef
          have hch' : ∀ c k, c ∈ ch' k ↔ (c < msgs.length ∧ place_of msgs c = some k) := by
            intro c k
            rw [hchdef]
            by_cases hnil : ch i = []
            · rw [if_pos hnil]
              exact hch c k
            · rw [if_neg hnil]
              have hperm := scr_perm msgs b
                (fun k => if k = i then isort (idx_le msgs) (ch i) else ch k)
                (isort (idx_le msgs) (ch i)) k
              rw [hperm.mem_iff]
              by_cases hk : k = i
              · subst hk
                rw [if_pos rfl, mem_isort]
                exact hch c k
              · rw [if_neg hk]
                exact hch c k
          exact ihwl (fun j hj => hwl j (by simp [hj])) ch' hch' (fuel + 1) (by omega)

theorem pass2_roots_mem (msgs : List Message) (i : Nat) :
    i ∈ (build_pass2 (place_of msgs) ⟨[], fun _ => []⟩ (List.range msgs.length)).roots ↔
      i < msgs.length ∧ place_of msgs i = none := by
  rw [build_pass2_roots]
  simp [List.mem_filter]

theorem pass2_children_mem (msgs : List Message) (c k : Nat) :
    c ∈ (build_pass2 (place_of msgs) ⟨[], fun _ => []⟩ (List.range msgs.length)).children k ↔
      c < msgs.length ∧ place_of msgs c = some k := by
  rw [build_pass2_children]
  simp [List.mem_filter]

theorem scr_build_stab (msgs : List Message) (fuel : Nat) (hf : msgs.length ≤ fuel) :
    sort_children_rec msgs fuel
      (build_pass2 (place_of msgs) ⟨[], fun _ => []⟩ (List.range msgs.length)).children
      (isort (idx_le msgs)
        (build_pass2 (place_of msgs) ⟨[], fun _ => []⟩ (List.range msgs.length)).roots) =
      (build msgs).children := by
  have hrhs : (build msgs).children = sort_children_rec msgs msgs.length
      (build_pass2 (place_of msgs) ⟨[], fun _ => []⟩ (List.range msgs.length)).children
      (isort (idx_le msgs)
        (build_pass2 (place_of msgs) ⟨[], fun _ => []⟩ (List.range msgs.length)).roots) := rfl
  rw [hrhs]
  refine scr_stab msgs msgs.length 0 (by omega) _ ?_ _ ?_ fuel hf
  · intro i hi
    have hi' := (mem_isort _ _ i).1 hi
    rcases (pass2_roots_mem msgs i).1 hi' with ⟨hin, hpl⟩
    exact ⟨hin, grounded_at_root _ i hpl⟩
  · intro c k
    exact pass2_children_mem msgs c k

end MessageTreeBuilder

/-- C10: `build` appends each message to at most one parent's children list
and at most once (the child graph has in-degree at most one); every
traversal from the roots terminates — the fuel-indexed recursions of
`flatten_with_depth`, `_calculate_max_depth` and `_sort_children_recursive`
all stabilize at fuel `msgs.length`, which therefore reproduces Python's
unbounded recursion — and the flattening visits each message at most once;
messages on a parent-reference cycle are reachable from no root and are
silently omitted from the flattened output. -/
theorem C10_tree_traversal_safety (msgs : List Message) :
    (∀ x, ((List.range msgs.length).flatMap
      (MessageTreeBuilder.build msgs).children).count x ≤ 1) ∧
    (∀ fuel, msgs.length ≤ fuel →
      MessageTreeBuilder.flatten_with_depth msgs fuel =
        MessageTreeBuilder.flatten_with_depth msgs msgs.length) ∧
    (∀ fuel, msgs.length ≤ fuel →
      MessageTreeBuilder.max_depth msgs fuel =
        MessageTreeBuilder.max_depth msgs msgs.length) ∧
    (∀ fuel, msgs.length ≤ fuel →
      MessageTreeBuilder.sort_children_rec msgs fuel
        (MessageTreeBuilder.build_pass2 (MessageTreeBuilder.place_of msgs)
          ⟨[], fun _ => []⟩ (List.range msgs.length)).children
        (isort (MessageTreeBuilder.idx_le msgs)
          (MessageTreeBuilder.build_pass2 (MessageTreeBuilder.place_of msgs)
            ⟨[], fun _ => []⟩ (List.range msgs.length)).roots) =
      (MessageTreeBuilder.build msgs).children) ∧
    ((MessageTreeBuilder.flatten_with_depth msgs msgs.length).map Prod.fst).Nodup ∧
    (∀ x, MessageTreeBuilder.on_cycle (MessageTreeBuilder.place_of msgs) x →
      (∀ r ∈ (MessageTreeBuilder.build msgs).roots, ∀ fuel,
        MessageTreeBuilder.reach_b (MessageTreeBuilder.build msgs).children fuel x r =
          false) ∧
      x ∉ (MessageTreeBuilder.flatten_with_depth msgs msgs.length).map Prod.fst) := by
  refine ⟨?_, ?_, ?_, ?_, ?_, ?_⟩
  · intro x
    have htot := MessageTreeBuilder.partition_count msgs x
    rw [List.count_append] at htot
    have hrange : (List.range msgs.length).count x ≤ 1 :=
      List.nodup_iff_count_le_one.1 (List.nodup_range _) x
    omega
  · exact fun fuel hf => MessageTreeBuilder.flatten_stab msgs fuel hf
  · exact fun fuel hf => MessageTreeBuilder.max_depth_stab msgs fuel hf
  · exact fun fuel hf => MessageTreeBuilder.scr_build_stab msgs fuel hf
  · exact MessageTreeBuilder.flatten_nodup msgs msgs.length
  · intro x hcyc
    exact ⟨fun r hr fuel => MessageTreeBuilder.cycle_not_reach_root msgs x r fuel hcyc hr,
      MessageTreeBuilder.cycle_omitted msgs x msgs.length hcyc⟩

/-- Witness for C10 at a concrete list containing a root, a dangling-parent
message and a two-message parent cycle. -/
theorem C10_tree_traversal_safety_witness :
    ((List.range (List.length [msgRoot, msgCycleA, msgCycleB])).flatMap
      (MessageTreeBuilder.build [msgRoot, msgCycleA, msgCycleB]).children).count 1 ≤ 1 ∧
    MessageTreeBuilder.flatten_with_depth [msgRoot, msgCycleA, msgCycleB] 5 =
      MessageTreeBuilder.flatten_with_depth [msgRoot, msgCycleA, msgCycleB]
        (List.length [msgRoot, msgCycleA, msgCycleB]) ∧
    1 ∉ (MessageTreeBuilder.flatten_with_depth [msgRoot, msgCycleA, msgCycleB]
      (List.length [msgRoot, msgCycleA, msgCycleB])).map Prod.fst := by
  refine ⟨(C10_tree_traversal_safety [msgRoot, msgCycleA, msgCycleB]).1 1,
    (C10_tree_traversal_safety [msgRoot, msgCycleA, msgCycleB]).2.1 5 (by decide),
    ((C10_tree_traversal_safety [msgRoot, msgCycleA, msgCycleB]).2.2.2.2.2 1 ?_).2⟩
  exact ⟨2, by decide, by decide⟩

theorem getLast?_cons_some {α : Type _} (a : α) (l : List α) :
    ∃ x, (a :: l).getLast? = some x := by
  induction l generalizing a with
  | nil => exact ⟨a, rfl⟩
  | cons b l ih =>
    rcases ih b with ⟨x, hx⟩
    exact ⟨x, by rw [List.getLast?_cons_cons]; exact hx⟩

namespace ConversationParser

theorem scan_tool_blocks_spec : ∀ (v : JValue) (tn tid : JValue),
    scan_tool_blocks v (tn, tid) =
      match (jitems v).find? is_tool_use with
      | some item => (jget item "name" .null, jget item "id" .null)
      | none =>
        (tn,
          match ((jitems v).filter is_tool_result).getLast? with
          | some item => jget item "tool_use_id" .null
          | none => tid) := by
  intro v
  induction v with
  | arrCons item rest ihh ih =>
    intro tn tid
    by_cases hobj : item.isObj
    · by_cases htu : jget item "type" .null = .str "tool_use"
      · have h1 : is_tool_use item = true := by simp [is_tool_use, hobj, htu]
        simp [scan_tool_blocks, hobj, htu, jitems, List.find?_cons, h1]
      · by_cases htr : jget item "type" .null = .str "tool_result"
        · have h1 : is_tool_use item = false := by simp [is_tool_use, htu]
          have h2 : is_tool_result item = true := by simp [is_tool_result, hobj, htr]
          simp only [scan_tool_blocks, hobj, if_true, htu, if_false, htr, jitems,
            List.find?_cons, h1, List.filter_cons, h2]
          rw [ih tn (jget item "tool_use_id" JValue.null)]
          cases hfind : (jitems rest).find? is_tool_use with
          | some item' => rfl
          | none =>
            cases hlast : ((jitems rest).filter is_tool_result) with
            | nil => simp [hlast]
            | cons a l =>
              rcases getLast?_cons_some a l with ⟨x, hx⟩
              simp [hlast, hx]
        · have h1 : is_tool_use item = false := by simp [is_tool_use, htu]
          have h2 : is_tool_result item = false := by simp [is_tool_result, htr]
          simp only [scan_tool_blocks, hobj, if_true, htu, if_false, htr, jitems,
            List.find?_cons, h1, List.filter_cons, h2]
          exact ih tn tid
    · have h1 : is_tool_use item = false := by simp [is_tool_use, hobj]
      have h2 : is_tool_result item = false := by simp [is_tool_result, hobj]
      simp only [scan_tool_blocks, hobj, if_false, jitems, List.find?_cons, h1,
        List.filter_cons, h2, Bool.false_eq_true]
      exact ih tn tid
  | null => intro tn tid; rfl
  | bool b => intro tn tid; rfl
  | num n => intro tn tid; rfl
  | str s => intro tn tid; rfl
  | arrNil => intro tn tid; rfl
  | objNil => intro tn tid; rfl
  | objCons k v t ihv iht => intro tn tid; rfl

end ConversationParser

/-- C6 counterexample: for a `tool_result` record with two `tool_result`
sub-blocks, the extracted `tool_use_id` is the *second* block's id — the
`tool_result` branch has no `break`, so scanning does not stop at the first
match and later matches overwrite it. -/
theorem C6_counterexample :
    (ConversationParser.parse_message pIso0 fTs0 recToolResults).map Message.tool_use_id =
        some (.str "T2") ∧
      (ConversationParser.parse_message pIso0 fTs0 recToolResults).map Message.tool_use_id ≠
        some (.str "T1") := by
  constructor <;> decide

/-- C6 (amended): for a `tool_use`/`tool_result` record whose
`message.content` is a list, the scan takes the tool name/id pair from the
*first* `tool_use` sub-block and stops there (later sub-blocks of either
kind are ignored); but when no `tool_use` sub-block occurs, the scan runs
to the end and the tool reference id comes from the *last* `tool_result`
sub-block — later `tool_result` matches overwrite earlier ones rather than
stopping the scan. -/
theorem C6_tool_extraction_amended (parseIso : String → Option Int)
    (fromTs : Int → Option String) (data message : JValue)
    (hobj : data.isObj = true)
    (huuid : (jget data "uuid" .null).truthy = true)
    (htype : jget data "type" (.str "unknown") = .str "tool_use" ∨
      jget data "type" (.str "unknown") = .str "tool_result")
    (hmsg : jlookup data "message" = some message)
    (hmobj : message.isObj = true)
    (harr : (jget message "content" .arrNil).isArr = true)
    (hcontent : (ConversationParser.extract_content data
      (jget data "type" (.str "unknown"))).isSome = true) :
    ∃ m, ConversationParser.parse_message parseIso fromTs data = some m ∧
      (m.tool_name, m.tool_use_id) =
        (match (ConversationParser.jitems (jget message "content" .arrNil)).find?
            ConversationParser.is_tool_use with
         | some item => (jget item "name" .null, jget item "id" .null)
         | none =>
           (JValue.null,
             match ((ConversationParser.jitems (jget message "content" .arrNil)).filter
                 ConversationParser.is_tool_result).getLast? with
             | some item => jget item "tool_use_id" .null
             | none => JValue.null)) := by
  obtain ⟨c, hc⟩ := Option.isSome_iff_exists.1 hcontent
  have htools : ConversationParser.extract_tool_info data
      (jget data "type" (.str "unknown")) =
      ConversationParser.scan_tool_blocks (jget message "content" .arrNil)
        (.null, .null) := by
    rw [ConversationParser.extract_tool_info, if_pos htype, hmsg]
    simp only [hmobj, if_true, harr]
  have hsome : (ConversationParser.parse_message parseIso fromTs data).isSome = true := by
    simp only [ConversationParser.parse_message, hobj, if_true, huuid, hc, Option.isSome_some]
  obtain ⟨m, hm⟩ := Option.isSome_iff_exists.1 hsome
  refine ⟨m, hm, ?_⟩
  have hm' := hm
  simp only [ConversationParser.parse_message, hobj, if_true, huuid, hc,
    Option.some.injEq] at hm'
  rw [← hm']
  dsimp only
  rw [htools, ConversationParser.scan_tool_blocks_spec]

/-- Witness for the amended C6 at a concrete record: the first `tool_use`
block supplies both fields. -/
theorem C6_tool_extraction_amended_witness :
    ∃ m, ConversationParser.parse_message pIso0 fTs0 recToolUse = some m ∧
      (m.tool_name, m.tool_use_id) =
        (match (ConversationParser.jitems
            (jget (jobj [("content", jarr [
              jobj [("type", .str "tool_result"), ("tool_use_id", .str "R0")],
              jobj [("type", .str "tool_use"), ("name", .str "Bash"), ("id", .str "I1")],
              jobj [("type", .str "tool_use"), ("name", .str "Grep"), ("id", .str "I2")]])])
              "content" .arrNil)).find? ConversationParser.is_tool_use with
         | some item => (jget item "name" .null, jget item "id" .null)
         | none =>
           (JValue.null,
             match ((ConversationParser.jitems
                 (jget (jobj [("content", jarr [
                   jobj [("type", .str "tool_result"), ("tool_use_id", .str "R0")],
                   jobj [("type", .str "tool_use"), ("name", .str "Bash"), ("id", .str "I1")],
                   jobj [("type", .str "tool_use"), ("name", .str "Grep"), ("id", .str "I2")]])])
                   "content" .arrNil)).filter
                 ConversationParser.is_tool_result).getLast? with
             | some item => jget item "tool_use_id" .null
             | none => JValue.null)) :=
  C6_tool_extraction_amended pIso0 fTs0 recToolUse
    (jobj [("content", jarr [
      jobj [("type", .str "tool_result"), ("tool_use_id", .str "R0")],
      jobj [("type", .str "tool_use"), ("name", .str "Bash"), ("id", .str "I1")],
      jobj [("type", .str "tool_use"), ("name", .str "Grep"), ("id", .str "I2")]])])
    (by decide) (by decide) (by decide) (by decide) (by decide) (by decide) (by decide)
